import Mathlib

/-!
A shallow embedding of `main.go` of igorcafe/gen.

The development models the parts of `main.go` that the specification talks
about: the moving-average estimator `MAvg`, the cache helpers `cacheGet` and
`cacheSet` with the two fetch-or-cache sites of `main`, the per-row filter and
listing step of the search loop (`fuzzyMatch`, `paddedText`, `shortenAuthors`),
and the download section of `main` (staging file, read loop, progress bar,
sync, rename and digest comparison).

Conventions.
* Go `int`, `int64` and `time.Duration` are 64-bit two's-complement integers:
  a value is an `Int`, and every arithmetic result is passed through `wrap64`.
* A Go run-time panic is an `Except.error` carrying the kind of panic.
* Go strings are modelled by `String` (a sequence of Unicode code points, that
  is, valid UTF-8); `len` and byte slicing go through the UTF-8 encoding.
* The time stamps of the cache are the texts the database holds and compares;
  the texts of `time.Now()` and `time.Now().Add(-ttl)` are inputs of the model.
* Library functions the repository calls but does not define (`crypto/md5`,
  `strings.ToLower`, the HTTP client, the file system, the clock) are inputs
  of the model; `regexp.Split`, `strings.Contains`, `strings.Split`,
  `strings.TrimSpace` and `strings.Repeat` are modelled after the Go library.
-/

set_option autoImplicit false

namespace Gen

/-! ## Machine integers and panics -/

/-- Kinds of Go run-time panic that the modelled code can raise. -/
inductive Panic where
  | divideByZero
  | indexOutOfRange
  | sliceBounds
  | negativeRepeat
  | negativeMakeLen
deriving DecidableEq, Repr

deriving instance DecidableEq for Except

/-- Two's-complement wrap of an integer to 64 bits (the range of `int` and `int64`). -/
def wrap64 (x : Int) : Int := (x + 2 ^ 63) % 2 ^ 64 - 2 ^ 63

/-- Range of a 64-bit signed integer. -/
def InInt64 (x : Int) : Prop := -(2 ^ 63) ≤ x ∧ x < 2 ^ 63

/-- Go `a / b` on 64-bit integers: truncated quotient, panic on a zero divisor. -/
def goDiv (a b : Int) : Except Panic Int :=
  if b = 0 then .error .divideByZero else .ok (wrap64 (Int.tdiv a b))

/-- Go `a % b` on 64-bit integers: truncated remainder, panic on a zero divisor. -/
def goMod (a b : Int) : Except Panic Int :=
  if b = 0 then .error .divideByZero else .ok (Int.tmod a b)

/-! ## `MAvg`: the moving-average estimator (main.go 495-521) -/

/-- Go `type MAvg struct { data []int; count int }`. -/
structure MAvg where
  data : List Int
  count : Int
deriving DecidableEq, Repr

/-- Go `new(MAvg)`: the zero value. -/
def MAvg.new : MAvg := { data := [], count := 0 }

/-- Go `func (m *MAvg) Init(size int)`: `m.data = make([]int, size)`. -/
def MAvg.Init (m : MAvg) (size : Int) : Except Panic MAvg :=
  if size < 0 then .error .negativeMakeLen
  else .ok { m with data := List.replicate size.toNat 0 }

/-- Go `func (m *MAvg) Add(val int)`:
`m.data[m.count%len(m.data)] = val; m.count++`. -/
def MAvg.Add (m : MAvg) (val : Int) : Except Panic MAvg :=
  match goMod m.count m.data.length with
  | .error p => .error p
  | .ok i =>
    if i < 0 ∨ (m.data.length : Int) ≤ i then .error .indexOutOfRange
    else .ok { data := m.data.set i.toNat val, count := wrap64 (m.count + 1) }

/-- Go `func (m *MAvg) Ready() bool`. -/
def MAvg.Ready (m : MAvg) : Bool := decide ((m.data.length : Int) ≤ m.count)

/-- Go `func (m *MAvg) CalcInt() int`: sum of `data[0..filled)` divided by
`filled := min(m.count, len(m.data))`. -/
def MAvg.CalcInt (m : MAvg) : Except Panic Int :=
  let filled : Int := min m.count m.data.length
  let sum := (m.data.take filled.toNat).foldl (fun s x => wrap64 (s + x)) 0
  goDiv sum filled

/-- The calls `Add(s1); ...; Add(sn)` in order. -/
def MAvg.addAll (m : MAvg) : List Int → Except Panic MAvg
  | [] => .ok m
  | s :: rest =>
    match m.Add s with
    | .error p => .error p
    | .ok m' => MAvg.addAll m' rest

/-- The run `Init(C); Add(s1); ...; Add(sn); CalcInt()` on a fresh `MAvg`. -/
def estimate (C : Int) (samples : List Int) : Except Panic Int :=
  match MAvg.new.Init C with
  | .error p => .error p
  | .ok m =>
    match m.addAll samples with
    | .error p => .error p
    | .ok m' => m'.CalcInt

/-- The last `k` elements of a list. -/
def lastN (k : Nat) (l : List Int) : List Int := l.drop (l.length - k)

/-- The samples preceded by the `C` zeros that `Init` puts in the buffer. -/
def history (C : Nat) (samples : List Int) : List Int := List.replicate C 0 ++ samples

/-- Ring-buffer invariant after `k` elements of `hist` beyond its first `C`
have been added to a buffer of capacity `C`: slot `j % C` holds `hist[j]` for
the `C` most recent positions `j`. -/
structure RingInv (C : Nat) (hist : List Int) (k : Nat) (m : MAvg) : Prop where
  len : m.data.length = C
  count : m.count = k
  slot : ∀ j, k ≤ j → j < k + C → m.data[j % C]? = hist[j]?
  sum : m.data.sum = ((hist.drop k).take C).sum

/-! ## Progress bar of the download loop (main.go 355-359) -/

/-- Go `strings.Repeat(s, count)`: panics on a negative count. -/
def stringsRepeat (s : String) (count : Int) : Except Panic String :=
  if count < 0 then .error .negativeRepeat
  else .ok (String.join (List.replicate count.toNat s))

/-- The percentage of the progress bar:
`perc := int(elapsed * 100 / total); perc = min(perc, 100); perc = max(0, perc)`. -/
def progressPercent (elapsed total : Int) : Except Panic Int :=
  match goDiv (wrap64 (elapsed * 100)) total with
  | .error p => .error p
  | .ok q => .ok (max 0 (min q 100))

/-- The two bar segments `strings.Repeat("=", perc/2)` and
`strings.Repeat("-", (100-perc)/2)`. -/
def progressBar (elapsed total : Int) : Except Panic (String × String) :=
  match progressPercent elapsed total with
  | .error p => .error p
  | .ok perc =>
    match goDiv perc 2 with
    | .error p => .error p
    | .ok a =>
      match stringsRepeat "=" a with
      | .error p => .error p
      | .ok elapsedStr =>
        match goDiv (wrap64 (100 - perc)) 2 with
        | .error p => .error p
        | .ok b =>
          match stringsRepeat "-" b with
          | .error p => .error p
          | .ok remainingStr => .ok (elapsedStr, remainingStr)

/-! ## Bytes and texts -/

/-- File and body contents: a byte is a natural number below 256. -/
abbrev Byte := Nat

/-- UTF-8 encoding of one code point. -/
def utf8Bytes (c : Char) : List Byte :=
  let n := c.toNat
  if n < 0x80 then [n]
  else if n < 0x800 then [0xC0 + n / 64, 0x80 + n % 64]
  else if n < 0x10000 then [0xE0 + n / 4096, 0x80 + n / 64 % 64, 0x80 + n % 64]
  else [0xF0 + n / 262144, 0x80 + n / 4096 % 64, 0x80 + n / 64 % 64, 0x80 + n % 64]

/-- The bytes of a Go string. -/
def goBytes (s : String) : List Byte := (s.toList.map utf8Bytes).flatten

/-- Byte-wise order `a <= b` of two byte strings, as `memcmp` on the common
length and then the shorter one first: SQLite's `BINARY` collation. -/
def bytesLE : List Byte → List Byte → Bool
  | [], _ => true
  | _ :: _, [] => false
  | x :: xs, y :: ys => if x < y then true else if y < x then false else bytesLE xs ys

/-- SQLite's comparison `a <= b` of two `TEXT` values. -/
def textLE (a b : String) : Bool := bytesLE (goBytes a) (goBytes b)

/-! ## The cache table (main.go 50-55 and 415-449) -/

/-- One row of `cache (key TEXT PRIMARY KEY, value BLOB, timestamp TEXT)`. The
time stamp is a text: the database driver binds a `time.Time` argument as the
string `time.Time.String()` gives for it, such as
`2024-11-03 01:15:00.5 -0500 EST m=+0.020000000` (wall clock in the local
zone, UTC offset, zone abbreviation, monotonic clock reading). -/
structure CacheRow where
  value : List Byte
  timestamp : String
deriving DecidableEq, Repr

/-- The cache table as a map from key to row (`key` is the primary key).
Database errors are only logged by the code and are not modelled. -/
abbrev Cache := String → Option CacheRow

/-- The table right after `CREATE TABLE`. -/
def Cache.empty : Cache := fun _ => none

/-- Go `cacheGet(db, key, ttl)`; `cutoffText` is the text bound for the argument
`time.Now().Add(-ttl)` when the call is made. With `ttl != 0` the query is
`WHERE key = ? AND timestamp >= ?`, a comparison of two texts in SQLite; with
`ttl == 0` it is `WHERE key = ?` and the clock is not read. No row leaves
`data` at `[]byte{}`. -/
def cacheGet (db : Cache) (cutoffText : String) (key : String) (ttl : Int) : List Byte :=
  if ttl ≠ 0 then
    match db key with
    | some row => if textLE cutoffText row.timestamp then row.value else []
    | none => []
  else
    match db key with
    | some row => row.value
    | none => []

/-- Go `cacheSet(db, key, value)`; `nowText` is the text bound for the argument
`time.Now()` when the call is made:
`INSERT ... ON CONFLICT DO UPDATE SET value = ?2, timestamp = ?3`. -/
def cacheSet (db : Cache) (nowText : String) (key : String) (value : List Byte) : Cache :=
  fun k => if k = key then some { value := value, timestamp := nowText } else db k

/-- The hit test both callers apply to the result of `cacheGet`: `len(body) != 0`. -/
def cacheHit (body : List Byte) : Bool := body.length != 0

/-- Go `24*time.Hour` in nanoseconds. -/
def ttl24h : Int := 24 * 3600 * 1000000000

/-! ## The two fetch-or-cache sites of `main` (main.go 99-112 and 234-248) -/

/-- Outcome of an HTTP GET followed by `io.ReadAll(resp.Body)`: a network
error, or a response with its status code, the bytes read from the body and
whether the read reached the end of the body without an error. -/
inductive GetOutcome where
  | netErr
  | response (status : Int) (body : List Byte) (readOk : Bool)
deriving DecidableEq, Repr

/-- What a fetch site hands to the rest of `main`. -/
inductive FetchResult where
  | page (body : List Byte)
  | skipped
  | fatal
deriving DecidableEq, Repr

/-- The search-page site (main.go 99-112): `cutoffText` is the text of
`time.Now().Add(-ttl)` at the call of `cacheGet`, `nowText` the text of
`time.Now()` at the call of `cacheSet`. An error makes the loop `continue` with
the next page (`skipped`). The status code of the response is not inspected. -/
def fetchSearchPage (db : Cache) (cutoffText nowText : String) (url : String)
    (get : GetOutcome) : Cache × FetchResult :=
  let body := cacheGet db cutoffText url ttl24h
  if body.length = 0 then
    match get with
    | .netErr => (db, .skipped)
    | .response _ body readOk =>
      if !readOk then (db, .skipped)
      else (cacheSet db nowText url body, .page body)
  else (db, .page body)

/-- The mirror-page site (main.go 234-248): every failure is `log.Fatal`. -/
def fetchMirrorPage (db : Cache) (cutoffText nowText : String) (url : String)
    (get : GetOutcome) : Cache × FetchResult :=
  let body := cacheGet db cutoffText url ttl24h
  if body.length = 0 then
    match get with
    | .netErr => (db, .fatal)
    | .response status body readOk =>
      if status ≠ 200 then (db, .fatal)
      else if !readOk then (db, .fatal)
      else (cacheSet db nowText url body, .page body)
  else (db, .page body)

/-! ## The download section of `main` (main.go 299-388) -/

/-- Go `type BookInfo struct`. -/
structure BookInfo where
  ID : String
  Authors : String
  Title : String
  Year : Int
  Hash : String
  Extension : String
  Language : String
  SizeStr : String
deriving DecidableEq, Repr

/-- Go `error` values that matter to the download: `io.EOF`,
`io.ErrUnexpectedEOF` and any other error, identified by a number. -/
inductive GoErr where
  | eof
  | unexpectedEOF
  | other (code : Nat)
deriving DecidableEq, Repr

/-- Result `(n, err)` of one `Read(buf)` on the response body: either `n >= 0`
bytes placed in `buf[:n]` together with `err` (`none` is `nil`), or a negative
`n`. -/
inductive ReadResult where
  | got (data : List Byte) (err : Option GoErr)
  | negative (err : Option GoErr)
deriving DecidableEq, Repr

/-- The `Read` result `(0, io.EOF)`. -/
def ReadResult.endOfStream : ReadResult := .got [] (some .eof)

/-- A `Read` result after which the loop goes on reading: `err` is `nil`, or
`io.EOF` together with at least one byte. -/
def ReadResult.continues : ReadResult → Bool
  | .got _ none => true
  | .got data (some .eof) => data != []
  | _ => false

/-- The bytes a `Read` result delivers. -/
def ReadResult.bytes : ReadResult → List Byte
  | .got data _ => data
  | .negative _ => []

/-- All bytes delivered by a sequence of `Read` results. -/
def streamBytes (rs : List ReadResult) : List Byte := (rs.map ReadResult.bytes).flatten

/-- The file system: path to content. -/
abbrev FS := String → Option (List Byte)

/-- Replace (or remove, with `none`) the file at `path`. -/
def FS.put (fs : FS) (path : String) (content : Option (List Byte)) : FS :=
  fun p => if p = path then content else fs p

/-- Go `os.Rename(old, new)` when it succeeds. -/
def FS.rename (fs : FS) (old new : String) : FS :=
  fun p => if p = new then fs old else if p = old then none else fs p

/-- Everything the download section receives from outside the program.
* `create`: the error of `os.Create(tempFilename)`, if any;
* `get`: `http.Get(url)`, an error or `resp.ContentLength` with the results
  of the successive `Read` calls on the body (a body whose list is used up
  keeps answering `(0, io.EOF)`);
* `write i data`: the outcome of the `i`-th `file.Write`, `none` for success,
  `some (k, e)` for error `e` after `k` bytes;
* `sample i`: the value `int(remainingDur)` of the `i`-th iteration (computed
  from the clock in floating point, not modelled);
* `sync`, `rename`: the errors of `file.Sync()` and `os.Rename`, if any;
* `md5hex`: `hex.EncodeToString(md5.Sum(...))`; `toLower`: `strings.ToLower`. -/
structure DownloadEnv where
  create : Option GoErr
  get : Except GoErr (Int × List ReadResult)
  write : Nat → List Byte → Option (Nat × GoErr)
  sample : Nat → Int
  sync : Option GoErr
  rename : Option GoErr
  md5hex : List Byte → String
  toLower : String → String

/-- Variables of the read loop: content of the staging file, bytes the
`TeeReader` has fed to the MD5 hash, `elapsed`, `mavg`, and the number of
completed iterations. -/
structure LoopState where
  staged : List Byte
  hashed : List Byte
  elapsed : Int
  mavg : MAvg
  iter : Nat
deriving DecidableEq, Repr

/-- How the read loop ends: by `break` with the value of `err`, or by a panic. -/
inductive LoopExit where
  | finished (err : Option GoErr)
  | panicked (p : Panic)
deriving DecidableEq, Repr

/-- One progress update (main.go 344-360) after `n` bytes were written. -/
def progressStep (env : DownloadEnv) (total : Int) (st : LoopState) (n : Nat) :
    Except Panic LoopState :=
  let elapsed := wrap64 (st.elapsed + n)
  match st.mavg.Add (env.sample st.iter) with
  | .error p => .error p
  | .ok mavg =>
    match mavg.CalcInt with
    | .error p => .error p
    | .ok _ =>
      match progressBar elapsed total with
      | .error p => .error p
      | .ok _ => .ok { st with elapsed := elapsed, mavg := mavg, iter := st.iter + 1 }

/-- The read loop (main.go 323-361) over the successive `Read` results. -/
def downloadLoop (env : DownloadEnv) (total : Int) :
    List ReadResult → LoopState → LoopExit × LoopState
  | [], st => (.finished none, st)
  | .negative _ :: _, st => (.finished (some .unexpectedEOF), st)
  | .got data err :: rest, st =>
    let st := { st with hashed := st.hashed ++ data }
    if err = some .eof ∧ data.length = 0 then (.finished none, st)
    else
      match (if err = some .eof then none else err) with
      | some e => (.finished (some e), st)
      | none =>
        match env.write st.iter data with
        | some (k, e) => (.finished (some e), { st with staged := st.staged ++ data.take k })
        | none =>
          let st := { st with staged := st.staged ++ data }
          match progressStep env total st data.length with
          | .error p => (.panicked p, st)
          | .ok st' => downloadLoop env total rest st'

/-- How the download section ends. -/
inductive Exit where
  | success
  | fatal (e : GoErr)
  | downloadError (e : GoErr)
  | hashMismatch (expected actual : String)
  | panicked (p : Panic)
deriving DecidableEq, Repr

/-- State of the world when the download section ends: the file system, the
way the program ends, the value of `elapsed`, and whether `os.Rename` moved
the staging file onto the destination. -/
structure Outcome where
  fs : FS
  exit : Exit
  elapsed : Int
  renamed : Bool

/-- Go `filename := fmt.Sprintf("%s - %s.%s", info.Authors, info.Title, info.Extension)`. -/
def filename (info : BookInfo) : String :=
  info.Authors ++ " - " ++ info.Title ++ "." ++ info.Extension

/-- Go `tempFilename := ".partial." + filename`. -/
def tempFilename (info : BookInfo) : String := ".partial." ++ filename info

/-- The download section of `main` (main.go 299-388). -/
def download (info : BookInfo) (env : DownloadEnv) (fs : FS) : Outcome :=
  match env.create with
  | some e => { fs := fs, exit := .fatal e, elapsed := 0, renamed := false }
  | none =>
    let fs := fs.put (tempFilename info) (some [])
    match env.get with
    | .error e => { fs := fs, exit := .fatal e, elapsed := 0, renamed := false }
    | .ok (total, body) =>
      match MAvg.new.Init 40 with
      | .error p => { fs := fs, exit := .panicked p, elapsed := 0, renamed := false }
      | .ok mavg =>
        let start : LoopState :=
          { staged := [], hashed := [], elapsed := 0, mavg := mavg, iter := 0 }
        match downloadLoop env total body start with
        | (.panicked p, st) =>
          { fs := fs.put (tempFilename info) (some st.staged), exit := .panicked p,
            elapsed := st.elapsed, renamed := false }
        | (.finished (some e), st) =>
          { fs := fs.put (tempFilename info) (some st.staged), exit := .downloadError e,
            elapsed := st.elapsed, renamed := false }
        | (.finished none, st) =>
          let fs := fs.put (tempFilename info) (some st.staged)
          match env.sync with
          | some e => { fs := fs, exit := .downloadError e, elapsed := st.elapsed, renamed := false }
          | none =>
            match env.rename with
            | some e =>
              { fs := fs, exit := .downloadError e, elapsed := st.elapsed, renamed := false }
            | none =>
              let fs := fs.rename (tempFilename info) (filename info)
              let hashStr := env.md5hex st.hashed
              if env.toLower info.Hash ≠ env.toLower hashStr then
                { fs := fs,
                  exit := .hashMismatch (env.toLower info.Hash) (env.toLower hashStr),
                  elapsed := st.elapsed, renamed := true }
              else { fs := fs, exit := .success, elapsed := st.elapsed, renamed := true }

/-- ASCII lower-casing; it agrees with `strings.ToLower` on ASCII strings. -/
def asciiLower (s : String) : String := String.mk (s.toList.map Char.toLower)

/-- An environment in which every operation of the file system succeeds and
the response has the given `Content-Length` and body. -/
def DownloadEnv.healthy (total : Int) (body : List ReadResult) (md5hex : List Byte → String) :
    DownloadEnv :=
  { create := none, get := .ok (total, body), write := fun _ _ => none, sample := fun _ => 0,
    sync := none, rename := none, md5hex := md5hex, toLower := asciiLower }

/-! ## Strings: UTF-8 length and slicing, `regexp`, `strings` helpers -/

/-- Go `len(s)` for a string. -/
def goLen (s : String) : Int := (goBytes s).length

/-- Go `s[:hi]` for a string and a constant `hi >= 0`: panics unless `hi <= len(s)`. -/
def goSliceTo (s : String) (hi : Nat) : Except Panic (List Byte) :=
  if hi ≤ (goBytes s).length then .ok ((goBytes s).take hi) else .error .sliceBounds

/-- The class of regexp word characters for `\b`: ASCII letters, digits and `_`. -/
def isWordChar (c : Char) : Bool :=
  (decide ('a' ≤ c) && decide (c ≤ 'z')) || (decide ('A' ≤ c) && decide (c ≤ 'Z')) ||
    (decide ('0' ≤ c) && decide (c ≤ '9')) || c == '_'

/-- Whether position `i` of `s` holds a word character (false outside the string). -/
def wordAt (s : List Char) (i : Nat) : Bool :=
  match s[i]? with
  | some c => isWordChar c
  | none => false

/-- Whether `\b` matches at position `p` of `s`: a word character on exactly
one side, the outside of the string counting as a non-word character. -/
def isBoundary (s : List Char) (p : Nat) : Bool :=
  (if p = 0 then false else wordAt s (p - 1)) != wordAt s p

/-- The matches of the regexp `\b+` in `s` as `FindAllStringIndex(s, -1)` returns
them: the empty match `[p, p]` at every word boundary `p`, in increasing order. -/
def wordBoundaries (s : List Char) : List Nat :=
  (List.range (s.length + 1)).filter (isBoundary s)

/-- The loop of Go `(*Regexp).Split` over empty matches `[p, p]`:
`end = match[0]; if match[1] != 0 { append s[beg:end] }; beg = match[1]`, and
after the loop `if end != len(s) { append s[beg:] }`. -/
def splitLoop (s : List Char) : List Nat → Nat → Nat → List (List Char) → List (List Char)
  | [], beg, fin, acc => if fin ≠ s.length then acc ++ [s.drop beg] else acc
  | p :: ps, beg, _, acc =>
    splitLoop s ps p p (if p ≠ 0 then acc ++ [(s.take p).drop beg] else acc)

/-- Go `regexp.MustCompile("\\b+").Split(s, -1)`; an empty `s` gives `[""]`. -/
def regexpSplit (s : List Char) : List (List Char) :=
  if s.length = 0 then [[]] else splitLoop s (wordBoundaries s) 0 0 []

/-- Go `strings.Contains(s, sub)`. -/
def stringsContains : List Char → List Char → Bool
  | [], sub => sub.isPrefixOf []
  | c :: cs, sub => sub.isPrefixOf (c :: cs) || stringsContains cs sub

/-- The `for _, opt := range opts` loop of `fuzzyMatch`. -/
def fuzzyLoop (toLower : String → String) (text : String) : List String → Bool
  | [] => true
  | opt :: rest =>
    if opt = "" then fuzzyLoop toLower text rest
    else if !stringsContains (toLower text).toList (toLower opt).toList then false
    else fuzzyLoop toLower text rest

/-- Go `fuzzyMatch(text, query)` (main.go 402-413); `toLower` is `strings.ToLower`. -/
def fuzzyMatch (toLower : String → String) (text query : String) : Bool :=
  fuzzyLoop toLower text ((regexpSplit query.toList).map String.mk)

/-- The relation "both word characters or both not", whose maximal runs are
the pieces between word boundaries. -/
def sameClass (a b : Char) : Bool := isWordChar a == isWordChar b

/-- Go `unicode.IsSpace`. -/
def isSpace (c : Char) : Bool :=
  let n := c.toNat
  (9 ≤ n && n ≤ 13) || n = 0x20 || n = 0x85 || n = 0xA0 || n = 0x1680 ||
    (0x2000 ≤ n && n ≤ 0x200A) || n = 0x2028 || n = 0x2029 || n = 0x202F || n = 0x205F ||
    n = 0x3000

/-- The reading of the specification: the non-empty tokens of the query split
on white space. -/
def whitespaceTokens (query : String) : List (List Char) :=
  (query.toList.splitOnP isSpace).filter (fun t => t != [])

/-- The reading of the specification: every white-space token of the query is a
case-insensitive substring of the text. -/
def specFuzzyMatch (toLower : String → String) (text query : String) : Bool :=
  (whitespaceTokens query).all
    (fun t => stringsContains (toLower text).toList (toLower (String.mk t)).toList)

/-! ## The per-row filter and listing step (main.go 157-198) -/

/-- Go `strings.TrimSpace`. -/
def trimSpace (s : List Char) : List Char :=
  ((s.dropWhile isSpace).reverse.dropWhile isSpace).reverse

/-- Go `strings.Split(s, sep)` for a separator of one character. -/
def stringsSplit (sep : Char) : List Char → List (List Char)
  | [] => [[]]
  | c :: cs =>
    match stringsSplit sep cs with
    | [] => [[c]]
    | piece :: pieces => if c = sep then [] :: piece :: pieces else (c :: piece) :: pieces

/-- Go `paddedText(text, length)` (main.go 392-400). In the second branch
`textRunes[:length/2-3]` needs `0 <= length/2-3` (its upper bound, the capacity
of the slice, is at least `textLen` and is never reached because
`length/2-3 < textLen` there) and `textRunes[textLen-length/2:]` needs
`0 <= textLen-length/2 <= textLen`. -/
def paddedText (text : String) (length : Int) : Except Panic String :=
  let textRunes := text.toList
  let textLen : Int := textRunes.length
  if textLen ≤ length then
    match stringsRepeat " " (length - textLen) with
    | .error p => .error p
    | .ok pad => .ok (text ++ pad)
  else
    let hi := Int.tdiv length 2 - 3
    let lo := textLen - Int.tdiv length 2
    if hi < 0 ∨ textLen < hi then .error .sliceBounds
    else if lo < 0 ∨ textLen < lo then .error .sliceBounds
    else .ok (String.mk (textRunes.take hi.toNat) ++ "..." ++ String.mk (textRunes.drop lo.toNat))

/-- Go `string([]rune(name)[0]) + "."`. -/
def initialOf (name : List Char) : Except Panic (List Char) :=
  match name with
  | [] => .error .indexOutOfRange
  | c :: _ => .ok [c, '.']

/-- The body of the loop of `shortenAuthors` for one non-empty, trimmed
`author`: the pair `(name, surname)`. -/
def shortenAuthor (author : List Char) : Except Panic (List Char × List Char) :=
  if author.contains ',' then
    let chunks := stringsSplit ',' author
    match chunks[0]?, chunks[1]? with
    | some c0, some c1 =>
      match initialOf (trimSpace c1) with
      | .error p => .error p
      | .ok name => .ok (name, trimSpace c0)
    | _, _ => .error .indexOutOfRange
  else
    let chunks := stringsSplit ' ' author
    match chunks[chunks.length - 1]?, chunks[0]? with
    | some cl, some c0 =>
      match initialOf (trimSpace c0) with
      | .error p => .error p
      | .ok name => .ok (name, trimSpace cl)
    | _, _ => .error .indexOutOfRange

/-- The `for _, author := range authors` loop of `shortenAuthors`. -/
def shortenLoop : List (List Char) → List Char → Except Panic (List Char)
  | [], res => .ok res
  | author :: rest, res =>
    let author := trimSpace author
    if author = [] then shortenLoop rest res
    else
      match shortenAuthor author with
      | .error p => .error p
      | .ok (name, surname) =>
        if res = [] then shortenLoop rest (res ++ (name ++ [' '] ++ surname))
        else shortenLoop rest (res ++ ([';', ' '] ++ name ++ [' '] ++ surname))

/-- Go `shortenAuthors(authorsStr)` (main.go 451-493). -/
def shortenAuthors (authorsStr : String) : Except Panic String :=
  let authorsStr := trimSpace authorsStr.toList
  if authorsStr = [] then .ok ""
  else
    let authors :=
      if authorsStr.contains ';' then stringsSplit ';' authorsStr else stringsSplit ',' authorsStr
    match shortenLoop authors [] with
    | .error p => .error p
    | .ok res => .ok (String.mk res)

/-- One printed line of the listing. -/
structure Row where
  title : String
  authors : String
  year : String
  ext : String
  lang : List Byte
  size : String
deriving DecidableEq, Repr

/-- The language filter (main.go 169):
`lang != "" && len(lang) >= 3 && info.Language[:3] != lang[:3]`; `true` means
the row is dropped. -/
def languageRejects (lang : String) (info : BookInfo) : Except Panic Bool :=
  if lang ≠ "" ∧ 3 ≤ goLen lang then
    match goSliceTo info.Language 3 with
    | .error p => .error p
    | .ok candidate =>
      match goSliceTo lang 3 with
      | .error p => .error p
      | .ok wanted => .ok (candidate != wanted)
  else .ok false

/-- The filters of one row (main.go 157-171): `true` means the row is kept.
`query` is `strings.Join(flag.Args(), " ")`. -/
def rowPasses (toLower : String → String) (extension author lang query : String)
    (info : BookInfo) : Except Panic Bool :=
  if extension ≠ "" ∧ info.Extension ≠ extension then .ok false
  else if !fuzzyMatch toLower info.Title query then .ok false
  else if author ≠ "" ∧ !fuzzyMatch toLower info.Authors author then .ok false
  else
    match languageRejects lang info with
    | .error p => .error p
    | .ok rejected => .ok (!rejected)

/-- The listing of a row that passed the filters (main.go 177-196). -/
def rowListing (docNumber : Nat) (info : BookInfo) : Except Panic Row :=
  match paddedText (toString docNumber ++ ") " ++ info.Title) 70 with
  | .error p => .error p
  | .ok title =>
    let year := if info.Year ≠ 0 then toString info.Year else "unk."
    match paddedText info.Extension 4 with
    | .error p => .error p
    | .ok ext =>
      match shortenAuthors info.Authors with
      | .error p => .error p
      | .ok short =>
        match paddedText short 25 with
        | .error p => .error p
        | .ok authors =>
          match goSliceTo info.Language 3 with
          | .error p => .error p
          | .ok lang =>
            match stringsRepeat " " (max 0 (7 - goLen info.SizeStr)) with
            | .error p => .error p
            | .ok pad =>
              .ok { title := title, authors := authors, year := year, ext := ext,
                    lang := lang, size := pad ++ info.SizeStr }

/-- The per-row step of the search loop after the columns were parsed: `none`
when a filter drops the row, the printed line when the row is listed. -/
def rowStep (toLower : String → String) (extension author lang query : String)
    (docNumber : Nat) (info : BookInfo) : Except Panic (Option Row) :=
  match rowPasses toLower extension author lang query info with
  | .error p => .error p
  | .ok false => .ok none
  | .ok true =>
    match rowListing docNumber info with
    | .error p => .error p
    | .ok row => .ok (some row)

/-! ## Auxiliary definitions for the proofs and concrete inputs -/

/-- The boundary test of `isBoundary` when the character before position `0`
has word class `b` (`isBoundary` is the case `b = false`). -/
def isBoundaryFrom (b : Bool) (s : List Char) (p : Nat) : Bool :=
  (if p = 0 then b else wordAt s (p - 1)) != wordAt s p

/-- The word boundaries of `s` when the character before `s` has word class `b`. -/
def boundariesFrom (b : Bool) (s : List Char) : List Nat :=
  (List.range (s.length + 1)).filter (isBoundaryFrom b s)

/-- Invariant of the estimator inside the read loop: a non-empty buffer and a
counter equal to the number of completed iterations. -/
def MAvgInv (m : MAvg) (iter : Nat) : Prop := 0 < m.data.length ∧ m.count = iter

/-- A sample record: "Dune" by Frank Herbert, with an expected digest. -/
def sampleBook : BookInfo :=
  { ID := "1", Authors := "Herbert, Frank", Title := "Dune", Year := 1965,
    Hash := "5289DF737DF57326FCDD22597AFB1FAC", Extension := "epub",
    Language := "english", SizeStr := "1 MB" }

/-- The sample record with an empty language column. -/
def sampleBookNoLanguage : BookInfo := { sampleBook with Language := "" }

/-- The sample record with an expected digest that no three-byte body has. -/
def sampleBookOtherHash : BookInfo :=
  { sampleBook with Hash := "00000000000000000000000000000000" }

/-- The MD5 digests of the bodies used in the examples (`md5sum` of the bytes
`01 02 03` and of the empty input); other inputs are not needed there. -/
def md5Table (body : List Byte) : String :=
  if body = [1, 2, 3] then "5289df737df57326fcdd22597afb1fac"
  else "d41d8cd98f00b204e9800998ecf8427e"

/-- The empty file system. -/
def FS.empty : FS := fun _ => none

/-- A healthy environment whose response announces three bytes. -/
def sampleEnv (body : List ReadResult) : DownloadEnv := DownloadEnv.healthy 3 body md5Table

/-- The text of a `time.Now()` in New York on 3 November 2024 at 06:15:00.5
UTC, a quarter of an hour after the clocks went back from EDT to EST. -/
def stampAfterFallBack : String := "2024-11-03 01:15:00.5 -0500 EST m=+0.020000000"

/-- The text of `time.Now().Add(-24*time.Hour)` for a `time.Now()` in New York
on 4 November 2024 at 05:45:00.5 UTC, 23 hours 30 minutes after
`stampAfterFallBack`: the instant 3 November 05:45:00.5 UTC lies before the
change and is printed in EDT. -/
def cutoffBeforeFallBack : String := "2024-11-03 01:45:00.5 -0400 EDT m=-86399.950000000"

/-- The text of a `time.Now()` in UTC on 2 May 2024 at 12:00:00.75. -/
def stampUTC : String := "2024-05-02 12:00:00.75 +0000 UTC m=+0.550000000"

/-- The text of `time.Now().Add(-24*time.Hour)` for a `time.Now()` in UTC on
2 May 2024 at 13:00:00.25, one hour after `stampUTC`. -/
def cutoffUTC : String := "2024-05-01 13:00:00.25 +0000 UTC m=-86399.950000000"

/-! ## Machine integers -/

theorem wrap64_of_inInt64 {x : Int} (h : InInt64 x) : wrap64 x = x := by
  unfold InInt64 at h; unfold wrap64; omega

theorem inInt64_wrap64 (x : Int) : InInt64 (wrap64 x) := by
  unfold InInt64 wrap64; omega

theorem wrap64_add_left (a b : Int) : wrap64 (wrap64 a + b) = wrap64 (a + b) := by
  unfold wrap64; omega

theorem foldl_wrap64 (l : List Int) (a : Int) :
    l.foldl (fun s x => wrap64 (s + x)) (wrap64 a) = wrap64 (a + l.sum) := by
  induction l generalizing a with
  | nil => simp
  | cons x xs ih =>
    simp only [List.foldl_cons, List.sum_cons]
    rw [wrap64_add_left, ih, add_assoc]

theorem foldl_wrap64_zero (l : List Int) :
    l.foldl (fun s x => wrap64 (s + x)) 0 = wrap64 l.sum := by
  have h := foldl_wrap64 l 0
  have h0 : wrap64 0 = 0 := by decide
  rw [h0] at h
  simpa using h

theorem inInt64_tdiv {w f : Int} (hw : InInt64 w) (hf : 1 ≤ f) : InInt64 (Int.tdiv w f) := by
  unfold InInt64 at *
  rcases le_or_lt 0 w with h | h
  · rw [Int.tdiv_eq_ediv h (by omega)]
    have h1 : 0 ≤ w / f := Int.ediv_nonneg h (by omega)
    have h2 : w / f ≤ w := Int.ediv_le_self f h
    omega
  · have hneg : Int.tdiv w f = -(Int.tdiv (-w) f) := by
      rw [Int.neg_tdiv, neg_neg]
    rw [hneg, Int.tdiv_eq_ediv (by omega) (by omega)]
    have h1 : 0 ≤ (-w) / f := Int.ediv_nonneg (by omega) (by omega)
    have h2 : (-w) / f ≤ -w := Int.ediv_le_self f (by omega)
    omega

/-! ## The estimator -/

theorem sum_set_int (l : List Int) (i : Nat) (a : Int) (h : i < l.length) :
    (l.set i a).sum = l.sum - l[i] + a := by
  induction l generalizing i with
  | nil => simp at h
  | cons x xs ih =>
    cases i with
    | zero => simp [add_comm]
    | succ i =>
      simp only [List.length_cons, Nat.add_lt_add_iff_right] at h
      simp only [List.set_cons_succ, List.sum_cons, List.getElem_cons_succ, ih i h]
      ring

theorem window_slide (hist : List Int) (k C : Nat) (h : k + C < hist.length) :
    ((hist.drop (k + 1)).take C).sum =
      ((hist.drop k).take C).sum - hist[k] + hist[k + C] := by
  have hk : k < hist.length := by omega
  have h1 : hist.drop k = hist[k] :: hist.drop (k + 1) := List.drop_eq_getElem_cons hk
  have h2 : ((hist.drop k).take (C + 1)).sum = ((hist.drop k).take C).sum + hist[k + C] := by
    rw [List.sum_take_succ _ _ (by simp; omega)]
    simp
  rw [h1, List.take_succ_cons, List.sum_cons] at h2
  rw [h1]
  linarith

/-- `Add` succeeds on a non-empty buffer whose counter is a natural number
below the wrap, and it stores the value in slot `k % C`. -/
theorem MAvg.Add_ok (m : MAvg) (val : Int) (k : Nat) (hlen : 0 < m.data.length)
    (hcount : m.count = k) (hk63 : (k : Int) + 1 < 2 ^ 63) :
    m.Add val = .ok { data := m.data.set (k % m.data.length) val, count := (k : Int) + 1 } := by
  have hmod : Int.tmod (k : Int) (m.data.length : Int) = ((k % m.data.length : Nat) : Int) := by
    rw [Int.tmod_eq_emod (Int.natCast_nonneg _) (Int.natCast_nonneg _)]
    exact (Int.natCast_mod k m.data.length).symm
  have hlt : k % m.data.length < m.data.length := Nat.mod_lt _ hlen
  unfold MAvg.Add goMod
  rw [hcount, hmod]
  have hC0 : ¬ ((m.data.length : Int) = 0) := by omega
  have hwrap : wrap64 ((k : Int) + 1) = (k : Int) + 1 := by
    apply wrap64_of_inInt64; constructor <;> omega
  simp only [hC0, if_false, hwrap, Int.toNat_ofNat]
  rw [if_neg]
  omega

theorem RingInv.add {C : Nat} {hist : List Int} {k : Nat} {m : MAvg}
    (inv : RingInv C hist k m) (hC : 0 < C) (hk : k + C < hist.length)
    (hk63 : (k : Int) + 1 < 2 ^ 63) :
    ∃ m', m.Add hist[k + C] = .ok m' ∧ RingInv C hist (k + 1) m' := by
  have hlen := inv.len
  have hlt : k % C < C := Nat.mod_lt _ hC
  refine ⟨{ data := m.data.set (k % C) hist[k + C], count := (k : Int) + 1 }, ?_, ?_⟩
  · rw [MAvg.Add_ok m _ k (by omega) inv.count hk63, hlen]
  · have hslot0 : m.data[k % C]? = hist[k]? := inv.slot k (le_refl _) (by omega)
    have hkC : k % C < m.data.length := by omega
    have hkh : k < hist.length := by omega
    have hget : m.data[k % C] = hist[k] := by
      have h1 : m.data[k % C]? = some m.data[k % C] := List.getElem?_eq_getElem hkC
      have h2 : hist[k]? = some hist[k] := List.getElem?_eq_getElem hkh
      rw [h1, h2] at hslot0
      exact Option.some.inj hslot0
    refine ⟨by simp [hlen], by push_cast; rfl, ?_, ?_⟩
    · intro j hj1 hj2
      show (m.data.set (k % C) hist[k + C])[j % C]? = hist[j]?
      by_cases hj : j = k + C
      · subst hj
        have : (k + C) % C = k % C := by simp
        rw [this, List.getElem?_set_self (by omega), List.getElem?_eq_getElem hk]
      · have hne : k % C ≠ j % C := by
          intro heq
          have h1 : (j - k) % C = 0 := Nat.sub_mod_eq_zero_of_mod_eq heq.symm
          have h2 : (j - k) % C = j - k := Nat.mod_eq_of_lt (by omega)
          omega
        rw [List.getElem?_set_ne hne]
        exact inv.slot j (by omega) (by omega)
    · show (m.data.set (k % C) hist[k + C]).sum = _
      rw [sum_set_int _ _ _ (by omega), hget, inv.sum, window_slide hist k C hk]

theorem RingInv.addAll {C : Nat} {hist : List Int} (hC : 0 < C) :
    ∀ (rest : List Int) (k : Nat) (m : MAvg), RingInv C hist k m →
      hist.drop (k + C) = rest → ((k + rest.length : Nat) : Int) < 2 ^ 63 →
      ∃ m', m.addAll rest = .ok m' ∧ RingInv C hist (k + rest.length) m' := by
  intro rest
  induction rest with
  | nil =>
    intro k m inv _ _
    exact ⟨m, rfl, by simpa using inv⟩
  | cons x xs ih =>
    intro k m inv hdrop hb
    have hlt : k + C < hist.length := by
      by_contra hcon
      rw [List.drop_eq_nil_of_le (by omega)] at hdrop
      exact List.noConfusion hdrop
    have hx : hist[k + C] = x ∧ hist.drop (k + 1 + C) = xs := by
      rw [List.drop_eq_getElem_cons hlt] at hdrop
      have hd := List.cons.inj hdrop
      refine ⟨hd.1, ?_⟩
      have : k + 1 + C = k + C + 1 := by omega
      rw [this]; exact hd.2
    have hb1 : (k : Int) + 1 < 2 ^ 63 := by
      simp only [List.length_cons] at hb
      push_cast at hb
      have := Int.natCast_nonneg xs.length
      omega
    obtain ⟨m1, hadd, inv1⟩ := inv.add hC hlt hb1
    have hb2 : ((k + 1 + xs.length : Nat) : Int) < 2 ^ 63 := by
      simp only [List.length_cons] at hb
      have : k + 1 + xs.length = k + (xs.length + 1) := by omega
      rw [this]; exact hb
    obtain ⟨m2, hall, inv2⟩ := ih (k + 1) m1 inv1 hx.2 hb2
    refine ⟨m2, ?_, ?_⟩
    · rw [MAvg.addAll, ← hx.1, hadd]
      exact hall
    · have : k + (x :: xs).length = k + 1 + xs.length := by simp; omega
      rw [this]; exact inv2

theorem RingInv.init (C : Nat) (samples : List Int) :
    RingInv C (history C samples) 0 ⟨List.replicate C 0, 0⟩ := by
  refine ⟨by simp, rfl, ?_, ?_⟩
  · intro j _ hj
    have hj' : j < C := by omega
    show (List.replicate C (0 : Int))[j % C]? = (history C samples)[j]?
    rw [Nat.mod_eq_of_lt hj']
    unfold history
    rw [List.getElem?_append_left (by simpa using hj')]
  · show (List.replicate C (0 : Int)).sum = _
    unfold history
    rw [List.drop_zero, List.take_left' (by simp)]

theorem RingInv.calcInt {C : Nat} {samples : List Int} {m : MAvg} (hC : 1 ≤ C)
    (hne : samples ≠ [])
    (inv : RingInv C (history C samples) samples.length m)
    (hsum : InInt64 (lastN (min samples.length C) samples).sum) :
    m.CalcInt = .ok (Int.tdiv (lastN (min samples.length C) samples).sum
      ((min samples.length C : Nat) : Int)) := by
  have hn : 1 ≤ samples.length := by
    cases samples with
    | nil => exact absurd rfl hne
    | cons _ _ => simp
  have hfilled : min m.count (m.data.length : Int) = ((min samples.length C : Nat) : Int) := by
    rw [inv.count, inv.len]; push_cast; rfl
  -- the slots beyond the filled part still hold the zeros of `Init`
  have hzero : ∀ x ∈ m.data.drop (min samples.length C), x = 0 := by
    intro x hx
    obtain ⟨i, hi, rfl⟩ := List.getElem_of_mem hx
    rw [List.length_drop, inv.len] at hi
    rw [List.getElem_drop]
    have hlt : min samples.length C + i < C := by omega
    have hslot := inv.slot (min samples.length C + i) (by omega) (by omega)
    rw [Nat.mod_eq_of_lt hlt] at hslot
    unfold history at hslot
    rw [List.getElem?_append_left (by simpa using hlt)] at hslot
    rw [List.getElem?_eq_getElem (by rw [inv.len]; exact hlt),
      List.getElem?_eq_getElem (by simpa using hlt)] at hslot
    have := Option.some.inj hslot
    rw [this]; simp
  have htake : (m.data.take (min samples.length C)).sum = m.data.sum := by
    have h := List.sum_take_add_sum_drop m.data (min samples.length C)
    rw [List.sum_eq_zero hzero] at h
    linarith
  have hwin : m.data.sum = (lastN (min samples.length C) samples).sum := by
    rw [inv.sum]
    unfold history lastN
    rw [List.take_of_length_le (by simp)]
    rw [List.drop_append_eq_append_drop, List.sum_append]
    have h0 : ((List.replicate C (0 : Int)).drop samples.length).sum = 0 := by
      apply List.sum_eq_zero
      intro x hx
      have := List.mem_of_mem_drop hx
      exact (List.mem_replicate.mp this).2
    rw [h0, zero_add]
    congr 2
    simp only [List.length_replicate]
    omega
  unfold MAvg.CalcInt goDiv
  simp only [hfilled, Int.toNat_ofNat]
  rw [foldl_wrap64_zero, htake, hwin, wrap64_of_inInt64 hsum]
  have hf : ¬ (((min samples.length C : Nat) : Int) = 0) := by
    have : 1 ≤ min samples.length C := by omega
    omega
  rw [if_neg hf, wrap64_of_inInt64 (inInt64_tdiv hsum (by omega))]

/-- The run `Init(C); Add...; CalcInt()` returns the truncated mean of the last
`min(n, C)` samples. -/
theorem estimate_eq (C : Nat) (hC : 1 ≤ C) (samples : List Int) (hne : samples ≠ [])
    (hlen : (samples.length : Int) < 2 ^ 63)
    (hsum : InInt64 (lastN (min samples.length C) samples).sum) :
    estimate C samples = .ok (Int.tdiv (lastN (min samples.length C) samples).sum
      ((min samples.length C : Nat) : Int)) := by
  have hinit : MAvg.new.Init (C : Int) = .ok ⟨List.replicate C 0, 0⟩ := by
    unfold MAvg.Init MAvg.new
    have : ¬ ((C : Int) < 0) := by omega
    simp [this]
  have hdrop : (history C samples).drop (0 + C) = samples := by
    unfold history
    rw [Nat.zero_add, List.drop_left' (by simp)]
  obtain ⟨m, hall, inv⟩ := RingInv.addAll (by omega) samples 0 _ (RingInv.init C samples) hdrop
    (by simpa using hlen)
  rw [Nat.zero_add] at inv
  unfold estimate
  rw [hinit]
  simp only [hall]
  exact inv.calcInt hC hne hsum

/-- Claim C6 (estimator window and mean). For every capacity `C >= 1` and every
non-empty sequence of samples, fewer than `2^63` of them, whose last
`min(n, C)` samples have a sum in the 64-bit range, the run `Init(C)`,
`Add(s1)`, ..., `Add(sn)`, `CalcInt()` returns the truncated integer quotient
of the sum of the last `min(n, C)` samples by `min(n, C)`; earlier samples have
no influence, and `n` identical samples `x` give exactly `x`. -/
theorem estimator_window_mean (C : Nat) (hC : 1 ≤ C) (samples : List Int) (hne : samples ≠ [])
    (hlen : (samples.length : Int) < 2 ^ 63)
    (hsum : InInt64 (lastN (min samples.length C) samples).sum) :
    estimate C samples = .ok (Int.tdiv (lastN (min samples.length C) samples).sum
        ((min samples.length C : Nat) : Int)) ∧
      (∀ x, (∀ s ∈ samples, s = x) → estimate C samples = .ok x) := by
  refine ⟨estimate_eq C hC samples hne hlen hsum, ?_⟩
  intro x hx
  rw [estimate_eq C hC samples hne hlen hsum]
  have hn : 1 ≤ samples.length := by
    cases samples with
    | nil => exact absurd rfl hne
    | cons _ _ => simp
  have hrep : lastN (min samples.length C) samples
      = List.replicate (min samples.length C) x := by
    rw [List.eq_replicate_iff]
    refine ⟨?_, ?_⟩
    · unfold lastN; rw [List.length_drop]; omega
    · intro b hb
      unfold lastN at hb
      exact hx b (List.mem_of_mem_drop hb)
  rw [hrep, List.sum_replicate, nsmul_eq_mul]
  have hk : ((min samples.length C : Nat) : Int) ≠ 0 := by
    have : 1 ≤ min samples.length C := by omega
    omega
  rw [Int.mul_tdiv_cancel_left _ hk]

/-- Witness of `estimator_window_mean`: capacity 3 and the samples 1, 2, 3, 10
give the mean 5 of the last three samples. -/
theorem estimator_window_mean_witness :
    estimate 3 [1, 2, 3, 10] = .ok 5 ∧
      (∀ x, (∀ s ∈ [1, 2, 3, 10], s = x) → estimate 3 [1, 2, 3, 10] = .ok x) :=
  estimator_window_mean 3 (by decide) [1, 2, 3, 10] (by decide) (by decide)
    ⟨by decide, by decide⟩

/-- Claim C7 (amended). For every capacity `C >= 1`, `CalcInt` right after
`Init(C)` computes `filled = 0` and divides by it: the call ends in the
run-time panic "integer divide by zero", not in an explicit error result. -/
theorem calcInt_without_samples_divides_by_zero (C : Int) (hC : 1 ≤ C) :
    estimate C [] = .error .divideByZero := by
  unfold estimate MAvg.Init MAvg.new
  have h : ¬ (C < 0) := by omega
  simp only [h, if_false, MAvg.addAll]
  unfold MAvg.CalcInt goDiv
  have hmin : min (0 : Int) ((List.replicate C.toNat (0 : Int)).length : Int) = 0 := by
    simp
  simp [hmin]

/-- Witness of `calcInt_without_samples_divides_by_zero` at capacity 40. -/
theorem calcInt_without_samples_divides_by_zero_witness :
    (1 : Int) ≤ 40 ∧ estimate 40 [] = .error .divideByZero :=
  ⟨by decide, calcInt_without_samples_divides_by_zero 40 (by decide)⟩

/-- Claim C7 (counterexample). With capacity 1 and no sample, `CalcInt` divides by
zero. -/
theorem calcInt_no_guard_counterexample :
    (MAvg.new.Init 1) = .ok { data := [0], count := 0 } ∧
      MAvg.CalcInt { data := [0], count := 0 } = .error .divideByZero := by
  decide

/-! ## The progress bar -/

theorem progressPercent_range (elapsed total : Int) (h : total ≠ 0) :
    ∃ perc, progressPercent elapsed total = .ok perc ∧ 0 ≤ perc ∧ perc ≤ 100 := by
  unfold progressPercent goDiv
  rw [if_neg h]
  exact ⟨_, rfl, le_max_left _ _, max_le (by decide) (min_le_right _ _)⟩

theorem stringsRepeat_ok (s : String) (count : Int) (h : 0 ≤ count) :
    ∃ r, stringsRepeat s count = .ok r := by
  unfold stringsRepeat
  rw [if_neg (by omega)]
  exact ⟨_, rfl⟩

/-- With a non-zero `total` the progress bar is computed without a panic. -/
theorem progressBar_ok (elapsed total : Int) (h : total ≠ 0) :
    ∃ bar, progressBar elapsed total = .ok bar := by
  obtain ⟨perc, hp, h0, h100⟩ := progressPercent_range elapsed total h
  have ha : InInt64 (Int.tdiv perc 2) := by
    rw [Int.tdiv_eq_ediv h0 (by decide)]
    unfold InInt64; omega
  have ha0 : 0 ≤ Int.tdiv perc 2 := by
    rw [Int.tdiv_eq_ediv h0 (by decide)]; omega
  have hw : wrap64 (100 - perc) = 100 - perc := by
    apply wrap64_of_inInt64; unfold InInt64; omega
  have hb : InInt64 (Int.tdiv (100 - perc) 2) := by
    rw [Int.tdiv_eq_ediv (by omega) (by decide)]
    unfold InInt64; omega
  have hb0 : 0 ≤ Int.tdiv (100 - perc) 2 := by
    rw [Int.tdiv_eq_ediv (by omega) (by decide)]; omega
  obtain ⟨r1, hr1⟩ := stringsRepeat_ok "=" (Int.tdiv perc 2) ha0
  obtain ⟨r2, hr2⟩ := stringsRepeat_ok "-" (Int.tdiv (100 - perc) 2) hb0
  refine ⟨(r1, r2), ?_⟩
  unfold progressBar
  rw [hp]
  have h2 : ¬ ((2 : Int) = 0) := by decide
  simp only [goDiv, h2, if_false, hw, wrap64_of_inInt64 ha, wrap64_of_inInt64 hb, hr1, hr2]

/-! ## The cache -/

theorem cacheGet_cacheSet_fresh (db : Cache) (k : String) (v : List Byte)
    (nowText cutoffText : String) (ttl : Int)
    (hne : ttl ≠ 0) (hfresh : textLE cutoffText nowText = true) :
    cacheGet (cacheSet db nowText k v) cutoffText k ttl = v := by
  unfold cacheGet cacheSet
  simp only [hne, ne_eq, not_false_eq_true, if_true]
  rw [if_pos hfresh]

theorem cacheGet_cacheSet_stale (db : Cache) (k : String) (v : List Byte)
    (nowText cutoffText : String) (ttl : Int)
    (hne : ttl ≠ 0) (hstale : textLE cutoffText nowText = false) :
    cacheGet (cacheSet db nowText k v) cutoffText k ttl = [] := by
  unfold cacheGet cacheSet
  simp only [hne, ne_eq, not_false_eq_true, if_true]
  rw [if_neg (by rw [hstale]; decide)]

theorem cacheGet_cacheSet_forever (db : Cache) (k : String) (v : List Byte)
    (nowText cutoffText : String) :
    cacheGet (cacheSet db nowText k v) cutoffText k 0 = v := by
  unfold cacheGet cacheSet
  simp

/-- Claim C4 (amended). The time stamp of a row is the text of `time.Now()` at
the write and SQLite compares it as text. After `cacheSet(k, v)` with the text
`nowText`, a `cacheGet(k, ttl)` with `ttl != 0` whose `time.Now().Add(-ttl)`
has the text `cutoffText` returns `v` when `cutoffText <= nowText` byte by
byte, and there the callers count a hit exactly when `v` is not empty; it
returns the empty slice, a miss, when `cutoffText > nowText`; and
`cacheGet(k, 0)` returns `v` whatever the texts, again a hit exactly when `v`
is not empty. -/
theorem cache_ttl (db : Cache) (k : String) (v : List Byte) (nowText cutoffText : String)
    (ttl : Int) (hne : ttl ≠ 0) :
    (textLE cutoffText nowText = true →
        cacheGet (cacheSet db nowText k v) cutoffText k ttl = v ∧
          (cacheHit (cacheGet (cacheSet db nowText k v) cutoffText k ttl) = true ↔ v ≠ [])) ∧
      (textLE cutoffText nowText = false →
        cacheGet (cacheSet db nowText k v) cutoffText k ttl = [] ∧
          cacheHit (cacheGet (cacheSet db nowText k v) cutoffText k ttl) = false) ∧
      (cacheGet (cacheSet db nowText k v) cutoffText k 0 = v ∧
        (cacheHit (cacheGet (cacheSet db nowText k v) cutoffText k 0) = true ↔ v ≠ [])) := by
  have hhit : cacheHit v = true ↔ v ≠ [] := by
    unfold cacheHit
    cases v <;> simp
  refine ⟨?_, ?_, ?_⟩
  · intro hfresh
    rw [cacheGet_cacheSet_fresh db k v nowText cutoffText ttl hne hfresh]
    exact ⟨rfl, hhit⟩
  · intro hstale
    rw [cacheGet_cacheSet_stale db k v nowText cutoffText ttl hne hstale]
    exact ⟨rfl, rfl⟩
  · rw [cacheGet_cacheSet_forever]
    exact ⟨rfl, hhit⟩

/-- Witness of `cache_ttl`: the value `[7]` written in UTC on 2 May 2024 at
12:00:00.75 and read one hour later with a time-to-live of 24 hours. -/
theorem cache_ttl_witness :
    ttl24h ≠ 0 ∧ textLE cutoffUTC stampUTC = true ∧
      cacheGet (cacheSet Cache.empty stampUTC "k" [7]) cutoffUTC "k" ttl24h = [7] ∧
      cacheHit (cacheGet (cacheSet Cache.empty stampUTC "k" [7]) cutoffUTC "k" ttl24h) = true :=
  ⟨by decide, by decide,
    ((cache_ttl Cache.empty "k" [7] stampUTC cutoffUTC ttl24h (by decide)).1 (by decide)).1,
    ((cache_ttl Cache.empty "k" [7] stampUTC cutoffUTC ttl24h (by decide)).1
      (by decide)).2.mpr (by decide)⟩

/-- Claim C4 (counterexample). The empty value, written and read one hour later
with a time-to-live of 24 hours or with `ttl = 0`, is returned but does not
count as found: the callers test `len(body) != 0`. And the value `[7]` written
in New York just after the change from EDT to EST and read 23 hours 30 minutes
later with a time-to-live of 24 hours is not found: the text of the time stamp,
`01:15` EST, is smaller than the text of the cutoff, `01:45` EDT. -/
theorem cache_empty_value_counterexample :
    cacheGet (cacheSet Cache.empty stampUTC "k" []) cutoffUTC "k" ttl24h = [] ∧
      cacheHit (cacheGet (cacheSet Cache.empty stampUTC "k" []) cutoffUTC "k" ttl24h) = false ∧
      cacheHit (cacheGet (cacheSet Cache.empty stampUTC "k" []) cutoffUTC "k" 0) = false ∧
      textLE cutoffBeforeFallBack stampAfterFallBack = false ∧
      cacheHit (cacheGet (cacheSet Cache.empty stampAfterFallBack "k" [7])
        cutoffBeforeFallBack "k" ttl24h) = false := by
  decide

/-! ## The fetch-or-cache sites -/

/-- The mirror-page site leaves the cache alone on every failure. -/
theorem fetchMirrorPage_failure (db : Cache) (cutoffText nowText : String) (url : String)
    (get : GetOutcome)
    (hfail : get = .netErr ∨ ∃ status body readOk,
      get = .response status body readOk ∧ (status ≠ 200 ∨ readOk = false)) :
    fetchMirrorPage db cutoffText nowText url get = (db, .fatal) ∨
      ∃ body, cacheHit body = true ∧ fetchMirrorPage db cutoffText nowText url get = (db, .page body) := by
  unfold fetchMirrorPage
  by_cases hmiss : (cacheGet db cutoffText url ttl24h).length = 0
  · left
    simp only [hmiss, if_true]
    rcases hfail with h | ⟨status, body, readOk, h, hbad⟩
    · rw [h]
    · rw [h]
      by_cases hs : status = 200
      · rcases hbad with hbad | hbad
        · exact absurd hs hbad
        · simp [hs, hbad]
      · simp [hs]
  · right
    refine ⟨cacheGet db cutoffText url ttl24h, ?_, ?_⟩
    · unfold cacheHit; simpa using hmiss
    · simp only [hmiss, if_false]

/-- The search-page site leaves the cache alone when the GET fails with a
network error or the body cannot be read to its end. -/
theorem fetchSearchPage_failure (db : Cache) (cutoffText nowText : String) (url : String)
    (get : GetOutcome)
    (hfail : get = .netErr ∨ ∃ status body, get = .response status body false) :
    (fetchSearchPage db cutoffText nowText url get).1 = db := by
  unfold fetchSearchPage
  by_cases hmiss : (cacheGet db cutoffText url ttl24h).length = 0
  · simp only [hmiss, if_true]
    rcases hfail with h | ⟨status, body, h⟩
    · rw [h]
    · rw [h]; rfl
  · simp only [hmiss, if_false]

/-- The search-page site stores and uses the body of every response it can
read, whatever the status code. -/
theorem fetchSearchPage_ignores_status (db : Cache) (cutoffText nowText : String) (url : String)
    (status : Int) (body : List Byte) (hmiss : cacheHit (cacheGet db cutoffText url ttl24h) = false) :
    fetchSearchPage db cutoffText nowText url (.response status body true)
      = (cacheSet db nowText url body, .page body) := by
  have h : (cacheGet db cutoffText url ttl24h).length = 0 := by
    unfold cacheHit at hmiss
    simpa using hmiss
  unfold fetchSearchPage
  simp only [h, if_true]
  rfl

/-- Claim C5 (the code at the failing input). At the search-page site, with an
empty cache and a GET answered by status 500 with the body `[60]`, `cacheSet`
stores the body of the error response under the URL and the body is used as
the page; the mirror-page site ends in `log.Fatalf` on the same response and
leaves the cache empty. -/
theorem search_page_caches_error_status :
    (fetchSearchPage Cache.empty cutoffUTC stampUTC "u" (.response 500 [60] true)).2
        = .page [60] ∧
      (fetchSearchPage Cache.empty cutoffUTC stampUTC "u" (.response 500 [60] true)).1 "u"
        = some { value := [60], timestamp := stampUTC } ∧
      (fetchMirrorPage Cache.empty cutoffUTC stampUTC "u" (.response 500 [60] true)).2
        = .fatal ∧
      (fetchMirrorPage Cache.empty cutoffUTC stampUTC "u" (.response 500 [60] true)).1 "u"
        = none := by
  decide

/-! ## The download section -/

theorem MAvg.CalcInt_ok (m : MAvg) (hlen : 0 < m.data.length) (hcount : 0 < m.count) :
    ∃ v, m.CalcInt = .ok v := by
  unfold MAvg.CalcInt goDiv
  have h : ¬ (min m.count (m.data.length : Int) = 0) := by
    have : (0 : Int) < m.data.length := by omega
    omega
  simp only [h, if_false]
  exact ⟨_, rfl⟩

/-- One progress update succeeds when `total` is not zero and the estimator
is in its loop invariant. -/
theorem progressStep_ok (env : DownloadEnv) (total : Int) (st : LoopState) (n : Nat)
    (htotal : total ≠ 0) (inv : MAvgInv st.mavg st.iter)
    (hiter : (st.iter : Int) + 1 < 2 ^ 63) :
    ∃ mavg, MAvgInv mavg (st.iter + 1) ∧
      progressStep env total st n =
        .ok { st with elapsed := wrap64 (st.elapsed + n), mavg := mavg, iter := st.iter + 1 } := by
  obtain ⟨hlen, hcount⟩ := inv
  have hadd := MAvg.Add_ok st.mavg (env.sample st.iter) st.iter hlen hcount hiter
  obtain ⟨v, hv⟩ := MAvg.CalcInt_ok
    { data := st.mavg.data.set (st.iter % st.mavg.data.length) (env.sample st.iter),
      count := (st.iter : Int) + 1 }
    (by simpa using hlen) (by show (0 : Int) < (st.iter : Int) + 1; omega)
  obtain ⟨bar, hbar⟩ := progressBar_ok (wrap64 (st.elapsed + n)) total htotal
  refine ⟨MAvg.mk (st.mavg.data.set (st.iter % st.mavg.data.length) (env.sample st.iter))
    ((st.iter : Int) + 1), ⟨?_, ?_⟩, ?_⟩
  · show 0 < (st.mavg.data.set (st.iter % st.mavg.data.length) (env.sample st.iter)).length
    simpa using hlen
  · show (st.iter : Int) + 1 = ((st.iter + 1 : Nat) : Int)
    push_cast; rfl
  · unfold progressStep
    simp only [hadd, hv, hbar]

theorem streamBytes_cons (r : ReadResult) (rs : List ReadResult) :
    streamBytes (r :: rs) = r.bytes ++ streamBytes rs := by
  simp [streamBytes]

/-- While the `Read` results let the loop continue, the loop appends their
bytes to the staging file and to the hash input and adds their number to
`elapsed`. -/
theorem downloadLoop_continues (env : DownloadEnv) (total : Int)
    (hwrite : ∀ i d, env.write i d = none) :
    ∀ (pre tail : List ReadResult) (st : LoopState),
      (∀ r ∈ pre, r.continues = true) → (total ≠ 0 ∨ pre = []) →
      MAvgInv st.mavg st.iter → ((st.iter + pre.length : Nat) : Int) < 2 ^ 63 →
      ∃ st', downloadLoop env total (pre ++ tail) st = downloadLoop env total tail st' ∧
        st'.staged = st.staged ++ streamBytes pre ∧
        st'.hashed = st.hashed ++ streamBytes pre ∧
        wrap64 st'.elapsed = wrap64 (st.elapsed + ((streamBytes pre).length : Int)) ∧
        (InInt64 st.elapsed → InInt64 st'.elapsed) ∧
        MAvgInv st'.mavg st'.iter := by
  intro pre
  induction pre with
  | nil =>
    intro tail st _ _ inv _
    exact ⟨st, rfl, by simp [streamBytes], by simp [streamBytes], by simp [streamBytes],
      fun h => h, inv⟩
  | cons r rs ih =>
    intro tail st hpre htotal inv hiter
    have htot : total ≠ 0 := by
      rcases htotal with h | h
      · exact h
      · exact absurd h (List.cons_ne_nil _ _)
    have hr : r.continues = true := hpre r (List.mem_cons_self _ _)
    have hrs : ∀ x ∈ rs, x.continues = true := fun x hx => hpre x (List.mem_cons_of_mem _ hx)
    have hiter1 : (st.iter : Int) + 1 < 2 ^ 63 := by
      simp only [List.length_cons] at hiter
      push_cast at hiter
      have := Int.natCast_nonneg rs.length
      omega
    -- one iteration of the loop on a `Read` result that continues
    have hstep : ∀ (data : List Byte) (err : Option GoErr),
        r = .got data err → ¬ (err = some .eof ∧ data.length = 0) →
        (if err = some .eof then none else err) = none →
        ∃ st1, downloadLoop env total (r :: rs ++ tail) st
            = downloadLoop env total (rs ++ tail) st1 ∧
          st1.staged = st.staged ++ data ∧ st1.hashed = st.hashed ++ data ∧
          st1.elapsed = wrap64 (st.elapsed + (data.length : Int)) ∧
          st1.iter = st.iter + 1 ∧ MAvgInv st1.mavg st1.iter := by
      intro data err hrd hne herr
      obtain ⟨mavg, hinv, hps⟩ := progressStep_ok env total
        { st with hashed := st.hashed ++ data, staged := st.staged ++ data } data.length htot inv
        hiter1
      refine ⟨LoopState.mk (st.staged ++ data) (st.hashed ++ data)
        (wrap64 (st.elapsed + (data.length : Int))) mavg (st.iter + 1),
        ?_, rfl, rfl, rfl, rfl, hinv⟩
      · rw [hrd]
        simp only [List.cons_append, downloadLoop]
        rw [if_neg hne]
        simp only [herr, hwrite, hps]
        rfl
    have hcase : ∃ data err, r = .got data err ∧ ¬ (err = some .eof ∧ data.length = 0) ∧
        (if err = some .eof then none else err) = none := by
      cases r with
      | negative err => simp [ReadResult.continues] at hr
      | got data err =>
        refine ⟨data, err, rfl, ?_, ?_⟩
        · cases err with
          | none => simp
          | some e =>
            cases e with
            | eof =>
              simp only [ReadResult.continues] at hr
              intro hcon
              have : data = [] := List.eq_nil_of_length_eq_zero hcon.2
              simp [this] at hr
            | unexpectedEOF => simp [ReadResult.continues] at hr
            | other code => simp [ReadResult.continues] at hr
        · cases err with
          | none => simp
          | some e =>
            cases e with
            | eof => simp
            | unexpectedEOF => simp [ReadResult.continues] at hr
            | other code => simp [ReadResult.continues] at hr
    obtain ⟨data, err, hrd, hne, herr⟩ := hcase
    obtain ⟨st1, hloop, hst, hha, hel, hit, hinv⟩ := hstep data err hrd hne herr
    have hiter2 : ((st1.iter + rs.length : Nat) : Int) < 2 ^ 63 := by
      rw [hit]
      simp only [List.length_cons] at hiter
      have : st.iter + 1 + rs.length = st.iter + (rs.length + 1) := by omega
      rw [this]; exact hiter
    obtain ⟨st2, hloop2, hst2, hha2, hel2, hin2, hinv2⟩ :=
      ih tail st1 hrs (Or.inl htot) hinv hiter2
    have hbytes : r.bytes = data := by rw [hrd]; rfl
    refine ⟨st2, ?_, ?_, ?_, ?_, ?_, hinv2⟩
    · rw [hloop, hloop2]
    · rw [hst2, hst, streamBytes_cons, hbytes, List.append_assoc]
    · rw [hha2, hha, streamBytes_cons, hbytes, List.append_assoc]
    · rw [hel2, hel, wrap64_add_left, streamBytes_cons, hbytes, List.length_append]
      push_cast
      rw [add_assoc]
    · intro _
      exact hin2 (by rw [hel]; exact inInt64_wrap64 _)

theorem downloadLoop_endOfStream (env : DownloadEnv) (total : Int) (tail : List ReadResult)
    (st : LoopState) (htail : tail = [] ∨ ∃ rest, tail = ReadResult.endOfStream :: rest) :
    downloadLoop env total tail st = (.finished none, st) := by
  rcases htail with h | ⟨rest, h⟩
  · rw [h]; rfl
  · rw [h]
    simp [downloadLoop, ReadResult.endOfStream]

theorem downloadLoop_readError (env : DownloadEnv) (total : Int) (d : List Byte) (e : GoErr)
    (rest : List ReadResult) (st : LoopState) (he : e ≠ .eof) :
    downloadLoop env total (.got d (some e) :: rest) st
      = (.finished (some e), { st with hashed := st.hashed ++ d }) := by
  have h1 : ¬ (some e = some GoErr.eof ∧ d.length = 0) := by
    intro h; exact he (Option.some.inj h.1)
  have h2 : (if some e = some GoErr.eof then none else some e) = some e := by
    rw [if_neg]; intro h; exact he (Option.some.inj h)
  simp only [downloadLoop]
  rw [if_neg h1]
  simp only [h2]

theorem init40 : MAvg.new.Init 40 = .ok { data := List.replicate 40 0, count := 0 } := by
  decide

theorem tempFilename_ne (info : BookInfo) : tempFilename info ≠ filename info := by
  intro h
  have hl := congrArg String.length h
  unfold tempFilename at hl
  rw [String.length_append] at hl
  have h9 : ".partial.".length = 9 := by decide
  omega

/-- A stream that ends cleanly leaves the loop by `break` with `err == nil`,
all its bytes staged, hashed and counted. -/
theorem downloadLoop_clean (env : DownloadEnv) (total : Int) (pre tail : List ReadResult)
    (hpre : ∀ r ∈ pre, r.continues = true)
    (htail : tail = [] ∨ ∃ rest, tail = ReadResult.endOfStream :: rest)
    (hwrite : ∀ i d, env.write i d = none) (htotal : total = 0 → pre = [])
    (hreads : (pre.length : Int) < 2 ^ 63) :
    ∃ st, downloadLoop env total (pre ++ tail)
          { staged := [], hashed := [], elapsed := 0,
            mavg := { data := List.replicate 40 0, count := 0 }, iter := 0 }
        = (.finished none, st) ∧
      st.staged = streamBytes pre ∧ st.hashed = streamBytes pre ∧
      st.elapsed = wrap64 ((streamBytes pre).length : Int) := by
  have htot : total ≠ 0 ∨ pre = [] := by
    by_cases h : total = 0
    · exact Or.inr (htotal h)
    · exact Or.inl h
  obtain ⟨st, hloop, hst, hha, hel, hin, _⟩ :=
    downloadLoop_continues env total hwrite pre tail
      { staged := [], hashed := [], elapsed := 0,
        mavg := { data := List.replicate 40 0, count := 0 }, iter := 0 }
      hpre htot ⟨by simp, rfl⟩ (by simpa using hreads)
  refine ⟨st, ?_, by simpa using hst, by simpa using hha, ?_⟩
  · rw [hloop, downloadLoop_endOfStream env total tail st htail]
  · have h0 : InInt64 (0 : Int) := by unfold InInt64; omega
    have := wrap64_of_inInt64 (hin h0)
    rw [← this, hel]
    simp

/-- Claim C2 (download, success case). Let the staging file be created, the GET
succeed, and the body be delivered by `Read` results `pre` with `err` `nil` or
`io.EOF` (the latter with at least one byte), fewer than `2^63` of them,
followed by `(0, io.EOF)`; let every `Write`, the `Sync` and the `Rename`
succeed, and let a `Content-Length` of zero come with an empty body. If the MD5
digest of the delivered bytes equals `info.Hash` after lower-casing, the
download section ends successfully with the file `filename` holding exactly
the concatenation of the delivered bytes and with no file at
`.partial.<filename>`. -/
theorem download_success (info : BookInfo) (env : DownloadEnv) (fs : FS) (total : Int)
    (pre tail : List ReadResult)
    (hcreate : env.create = none) (hget : env.get = .ok (total, pre ++ tail))
    (hpre : ∀ r ∈ pre, r.continues = true)
    (htail : tail = [] ∨ ∃ rest, tail = ReadResult.endOfStream :: rest)
    (hwrite : ∀ i d, env.write i d = none) (hsync : env.sync = none)
    (hrename : env.rename = none) (htotal : total = 0 → pre = [])
    (hreads : (pre.length : Int) < 2 ^ 63)
    (hmatch : env.toLower info.Hash = env.toLower (env.md5hex (streamBytes pre))) :
    (download info env fs).exit = .success ∧
      (download info env fs).renamed = true ∧
      (download info env fs).fs (filename info) = some (streamBytes pre) ∧
      (download info env fs).fs (tempFilename info) = none := by
  obtain ⟨st, hloop, hst, hha, _⟩ :=
    downloadLoop_clean env total pre tail hpre htail hwrite htotal hreads
  have hne := tempFilename_ne info
  have hout : download info env fs =
      { fs := ((fs.put (tempFilename info) (some [])).put (tempFilename info)
          (some st.staged)).rename (tempFilename info) (filename info),
        exit := .success, elapsed := st.elapsed, renamed := true } := by
    unfold download
    simp only [hcreate, hget, init40, hloop, hsync, hrename, hha, ← hmatch]
    simp
  rw [hout]
  refine ⟨rfl, rfl, ?_, ?_⟩
  · simp [FS.rename, FS.put, hst]
  · simp [FS.rename, FS.put, hne]

/-- Witness of `download_success`: the body `01 02 03` arrives as `(2, nil)`
and `(1, io.EOF)`; the expected digest is given in upper case. -/
theorem download_success_witness :
    (download sampleBook (sampleEnv [.got [1, 2] none, .got [3] (some .eof)]) FS.empty).exit
        = .success ∧
      (download sampleBook (sampleEnv [.got [1, 2] none, .got [3] (some .eof)]) FS.empty).renamed
        = true ∧
      (download sampleBook (sampleEnv [.got [1, 2] none, .got [3] (some .eof)]) FS.empty).fs
        (filename sampleBook) = some [1, 2, 3] ∧
      (download sampleBook (sampleEnv [.got [1, 2] none, .got [3] (some .eof)]) FS.empty).fs
        (tempFilename sampleBook) = none :=
  download_success sampleBook (sampleEnv [.got [1, 2] none, .got [3] (some .eof)]) FS.empty 3
    [.got [1, 2] none, .got [3] (some .eof)] [] rfl rfl (by decide) (Or.inl rfl)
    (fun _ _ => rfl) rfl rfl (by decide) (by decide) (by decide)

/-- Claim C1 (the code on a digest mismatch). Under the conditions of
`download_success` on the environment, if the MD5 digest of the delivered
bytes differs from `info.Hash` after lower-casing, the download section ends
with the checksum-mismatch exit, but `os.Rename` has already run: the file
`filename` exists and holds the delivered bytes, and the staging file is gone.
The rename precedes the comparison of the digests. -/
theorem download_mismatch_renames_first (info : BookInfo) (env : DownloadEnv) (fs : FS)
    (total : Int) (pre tail : List ReadResult)
    (hcreate : env.create = none) (hget : env.get = .ok (total, pre ++ tail))
    (hpre : ∀ r ∈ pre, r.continues = true)
    (htail : tail = [] ∨ ∃ rest, tail = ReadResult.endOfStream :: rest)
    (hwrite : ∀ i d, env.write i d = none) (hsync : env.sync = none)
    (hrename : env.rename = none) (htotal : total = 0 → pre = [])
    (hreads : (pre.length : Int) < 2 ^ 63)
    (hmis : env.toLower info.Hash ≠ env.toLower (env.md5hex (streamBytes pre))) :
    (download info env fs).exit
        = .hashMismatch (env.toLower info.Hash) (env.toLower (env.md5hex (streamBytes pre))) ∧
      (download info env fs).renamed = true ∧
      (download info env fs).fs (filename info) = some (streamBytes pre) ∧
      (download info env fs).fs (tempFilename info) = none := by
  obtain ⟨st, hloop, hst, hha, _⟩ :=
    downloadLoop_clean env total pre tail hpre htail hwrite htotal hreads
  have hne := tempFilename_ne info
  have hout : download info env fs =
      { fs := ((fs.put (tempFilename info) (some [])).put (tempFilename info)
          (some st.staged)).rename (tempFilename info) (filename info),
        exit := .hashMismatch (env.toLower info.Hash)
          (env.toLower (env.md5hex (streamBytes pre))),
        elapsed := st.elapsed, renamed := true } := by
    unfold download
    simp only [hcreate, hget, init40, hloop, hsync, hrename, hha]
    rw [if_pos hmis]
  rw [hout]
  refine ⟨rfl, rfl, ?_, ?_⟩
  · simp [FS.rename, FS.put, hst]
  · simp [FS.rename, FS.put, hne]

/-- Witness of `download_mismatch_renames_first`: the body `01 02 03` with the
expected digest `000...0`; the destination file exists after the mismatch. -/
theorem download_mismatch_renames_first_witness :
    (download sampleBookOtherHash (sampleEnv [.got [1, 2, 3] none]) FS.empty).exit
        = .hashMismatch "00000000000000000000000000000000" "5289df737df57326fcdd22597afb1fac" ∧
      (download sampleBookOtherHash (sampleEnv [.got [1, 2, 3] none]) FS.empty).renamed = true ∧
      (download sampleBookOtherHash (sampleEnv [.got [1, 2, 3] none]) FS.empty).fs
        (filename sampleBookOtherHash) = some [1, 2, 3] ∧
      (download sampleBookOtherHash (sampleEnv [.got [1, 2, 3] none]) FS.empty).fs
        (tempFilename sampleBookOtherHash) = none :=
  download_mismatch_renames_first sampleBookOtherHash (sampleEnv [.got [1, 2, 3] none]) FS.empty 3
    [.got [1, 2, 3] none] [] rfl rfl (by decide) (Or.inl rfl)
    (fun _ _ => rfl) rfl rfl (by decide) (by decide) (by decide)

/-- Claim C3 (amended). Let the staging file be created, the GET succeed, every
`Write` succeed, and a `Content-Length` of zero come with no `Read` result
before the failing one. If the body is delivered by `Read` results `pre` that
let the loop continue (fewer than `2^63` of them, fewer than `2^63` bytes) and
the next `Read` returns `d` together with an error `e` other than `io.EOF`,
then the download section ends with that error, `os.Rename` is never executed
and the destination path is as before, the staging file holds the bytes of
`pre`, and `elapsed` equals the number of bytes of `pre`: the bytes `d` that
came with the error are fed to the hash only, neither written nor counted. -/
theorem download_read_error (info : BookInfo) (env : DownloadEnv) (fs : FS)
    (total : Int) (pre rest : List ReadResult) (d : List Byte) (e : GoErr)
    (hcreate : env.create = none)
    (hget : env.get = .ok (total, pre ++ .got d (some e) :: rest))
    (he : e ≠ .eof) (hpre : ∀ r ∈ pre, r.continues = true)
    (hwrite : ∀ i b, env.write i b = none) (htotal : total = 0 → pre = [])
    (hreads : (pre.length : Int) < 2 ^ 63)
    (hbytes : ((streamBytes pre).length : Int) < 2 ^ 63) :
    (download info env fs).exit = .downloadError e ∧
      (download info env fs).renamed = false ∧
      (download info env fs).fs (filename info) = fs (filename info) ∧
      (download info env fs).fs (tempFilename info) = some (streamBytes pre) ∧
      (download info env fs).elapsed = ((streamBytes pre).length : Int) := by
  have htot : total ≠ 0 ∨ pre = [] := by
    by_cases h : total = 0
    · exact Or.inr (htotal h)
    · exact Or.inl h
  obtain ⟨st, hloop, hst, _, hel, hin, _⟩ :=
    downloadLoop_continues env total hwrite pre (.got d (some e) :: rest)
      { staged := [], hashed := [], elapsed := 0,
        mavg := { data := List.replicate 40 0, count := 0 }, iter := 0 }
      hpre htot ⟨by simp, rfl⟩ (by simpa using hreads)
  rw [downloadLoop_readError env total d e rest st he] at hloop
  have hne := tempFilename_ne info
  have helapsed : st.elapsed = ((streamBytes pre).length : Int) := by
    have h0 : InInt64 (0 : Int) := by unfold InInt64; omega
    have h1 := wrap64_of_inInt64 (hin h0)
    have h2 : InInt64 ((streamBytes pre).length : Int) := by
      unfold InInt64
      have := Int.natCast_nonneg (streamBytes pre).length
      omega
    rw [← h1, hel]
    simpa using wrap64_of_inInt64 h2
  have hout : download info env fs =
      { fs := (fs.put (tempFilename info) (some [])).put (tempFilename info) (some st.staged),
        exit := .downloadError e, elapsed := st.elapsed, renamed := false } := by
    unfold download
    simp only [hcreate, hget, init40, hloop]
  rw [hout]
  refine ⟨rfl, rfl, ?_, ?_, helapsed⟩
  · simp [FS.put, hne.symm]
  · simp [FS.put, hst]

/-- Witness of `download_read_error`: two bytes arrive, then a `Read` returns
one more byte together with an error; `elapsed` is 2. -/
theorem download_read_error_witness :
    (download sampleBook (sampleEnv [.got [1, 2] none, .got [3] (some (.other 7))])
        FS.empty).exit = .downloadError (.other 7) ∧
      (download sampleBook (sampleEnv [.got [1, 2] none, .got [3] (some (.other 7))])
        FS.empty).renamed = false ∧
      (download sampleBook (sampleEnv [.got [1, 2] none, .got [3] (some (.other 7))])
        FS.empty).fs (filename sampleBook) = FS.empty (filename sampleBook) ∧
      (download sampleBook (sampleEnv [.got [1, 2] none, .got [3] (some (.other 7))])
        FS.empty).fs (tempFilename sampleBook) = some [1, 2] ∧
      (download sampleBook (sampleEnv [.got [1, 2] none, .got [3] (some (.other 7))])
        FS.empty).elapsed = 2 :=
  download_read_error sampleBook (sampleEnv [.got [1, 2] none, .got [3] (some (.other 7))])
    FS.empty 3 [.got [1, 2] none] [] [3] (.other 7) rfl rfl (by decide) (by decide)
    (fun _ _ => rfl) (by decide) (by decide) (by decide)

/-- Claim C3 (counterexample). A stream delivers `K = 3` bytes and then fails: the
`Read` that reports the error returns all three bytes with it. The loop stops
with the error, yet `elapsed` is 0, not 3. -/
theorem download_read_error_counterexample :
    (streamBytes [.got [1, 2, 3] (some (.other 7))]).length = 3 ∧
      (download sampleBook (sampleEnv [.got [1, 2, 3] (some (.other 7))]) FS.empty).exit
        = .downloadError (.other 7) ∧
      (download sampleBook (sampleEnv [.got [1, 2, 3] (some (.other 7))]) FS.empty).elapsed
        = 0 := by
  decide

/-! ## The percentage of the progress bar -/

/-- Claim C9 (amended). For every total length other than zero, positive or
negative (unknown, `-1`), and every transferred count `elapsed`, the
percentage computation `elapsed * 100 / total`, then `min` with 100, then `max`
with 0, does not divide by zero and yields a value `perc` in `[0, 100]`; the
two segment lengths `perc/2` and `(100-perc)/2` are computed and non-negative,
and both `strings.Repeat` calls of the progress bar succeed. And whatever the
total, a body whose first `Read` returns `(0, io.EOF)`, as the empty body of a
response with `Content-Length: 0` does, ends the loop before any percentage is
computed. -/
theorem progress_percent_clamped (elapsed total : Int) (htotal : total ≠ 0) :
    (∃ perc a b, progressPercent elapsed total = .ok perc ∧ 0 ≤ perc ∧ perc ≤ 100 ∧
      goDiv perc 2 = .ok a ∧ 0 ≤ a ∧
      goDiv (wrap64 (100 - perc)) 2 = .ok b ∧ 0 ≤ b ∧
      ∃ bar, progressBar elapsed total = .ok bar) ∧
    (∀ (env : DownloadEnv) (anyTotal : Int) (rest : List ReadResult) (st : LoopState),
      downloadLoop env anyTotal (ReadResult.endOfStream :: rest) st = (.finished none, st)) := by
  refine ⟨?_, fun env anyTotal rest st =>
    downloadLoop_endOfStream env anyTotal _ st (Or.inr ⟨rest, rfl⟩)⟩
  obtain ⟨perc, hp, h0, h100⟩ := progressPercent_range elapsed total htotal
  have ha : InInt64 (Int.tdiv perc 2) := by
    rw [Int.tdiv_eq_ediv h0 (by decide)]
    unfold InInt64; omega
  have ha0 : 0 ≤ Int.tdiv perc 2 := by
    rw [Int.tdiv_eq_ediv h0 (by decide)]; omega
  have hw : wrap64 (100 - perc) = 100 - perc := by
    apply wrap64_of_inInt64; unfold InInt64; omega
  have hb : InInt64 (Int.tdiv (100 - perc) 2) := by
    rw [Int.tdiv_eq_ediv (by omega) (by decide)]
    unfold InInt64; omega
  have hb0 : 0 ≤ Int.tdiv (100 - perc) 2 := by
    rw [Int.tdiv_eq_ediv (by omega) (by decide)]; omega
  have h2 : ¬ ((2 : Int) = 0) := by decide
  refine ⟨perc, Int.tdiv perc 2, Int.tdiv (100 - perc) 2, hp, h0, h100, ?_, ha0, ?_, hb0,
    progressBar_ok elapsed total htotal⟩
  · simp only [goDiv, h2, if_false, wrap64_of_inInt64 ha]
  · simp only [goDiv, h2, if_false, hw, wrap64_of_inInt64 hb]

/-- Witness of `progress_percent_clamped`: an unknown length `total = -1` after
5120 bytes gives 0 percent, that is, the segments 0 and 50. -/
theorem progress_percent_clamped_witness :
    (-1 : Int) ≠ 0 ∧
      ∃ perc a b, progressPercent 5120 (-1) = .ok perc ∧ 0 ≤ perc ∧ perc ≤ 100 ∧
        goDiv perc 2 = .ok a ∧ 0 ≤ a ∧
        goDiv (wrap64 (100 - perc)) 2 = .ok b ∧ 0 ≤ b ∧
        ∃ bar, progressBar 5120 (-1) = .ok bar :=
  ⟨by decide, (progress_percent_clamped 5120 (-1) (by decide)).1⟩

/-- Claim C9 (counterexample). With `total = 0` and `elapsed = 1` the division
`elapsed * 100 / total` of the percentage computation is a division by zero. -/
theorem progress_percent_zero_total_counterexample :
    goDiv (wrap64 (1 * 100)) 0 = .error .divideByZero ∧
      progressPercent 1 0 = .error .divideByZero := by
  decide

/-! ## `fuzzyMatch` -/

theorem stringsContains_iff (s sub : List Char) :
    stringsContains s sub = true ↔ sub <:+: s := by
  induction s with
  | nil =>
    simp only [stringsContains, List.isPrefixOf_iff_prefix]
    constructor
    · intro h; exact h.isInfix
    · intro h
      have := List.eq_nil_of_infix_nil h
      rw [this]
  | cons c cs ih =>
    simp only [stringsContains, Bool.or_eq_true, List.isPrefixOf_iff_prefix, ih]
    exact List.infix_cons_iff.symm

theorem fuzzyLoop_iff (toLower : String → String) (text : String) (opts : List String) :
    fuzzyLoop toLower text opts = true ↔
      ∀ opt ∈ opts, opt ≠ "" →
        stringsContains (toLower text).toList (toLower opt).toList = true := by
  induction opts with
  | nil => simp [fuzzyLoop]
  | cons opt rest ih =>
    unfold fuzzyLoop
    by_cases hopt : opt = ""
    · simp only [hopt, if_true, ih, List.mem_cons]
      constructor
      · intro h o ho hne
        rcases ho with ho | ho
        · exact absurd ho hne
        · exact h o ho hne
      · intro h o ho hne
        exact h o (Or.inr ho) hne
    · simp only [hopt, if_false]
      by_cases hc : stringsContains (toLower text).toList (toLower opt).toList = true
      · simp only [hc, Bool.not_true, Bool.false_eq_true, if_false, ih, List.mem_cons]
        constructor
        · intro h o ho hne
          rcases ho with ho | ho
          · rw [ho]; exact hc
          · exact h o ho hne
        · intro h o ho hne
          exact h o (Or.inr ho) hne
      · have hf : stringsContains (toLower text).toList (toLower opt).toList = false := by
          simpa using hc
        simp only [hf, Bool.not_false, if_true]
        constructor
        · intro h; exact absurd h (by decide)
        · intro h
          have := h opt (List.mem_cons_self _ _) hopt
          rw [hf] at this
          exact absurd this (by decide)

theorem wordAt_cons_succ (c : Char) (s : List Char) (i : Nat) :
    wordAt (c :: s) (i + 1) = wordAt s i := by
  simp [wordAt]

theorem wordAt_cons_zero (c : Char) (s : List Char) : wordAt (c :: s) 0 = isWordChar c := by
  simp [wordAt]

theorem isBoundaryFrom_cons_succ (b : Bool) (c : Char) (s : List Char) (p : Nat) :
    isBoundaryFrom b (c :: s) (p + 1) = isBoundaryFrom (isWordChar c) s p := by
  unfold isBoundaryFrom
  cases p with
  | zero => simp [wordAt_cons_zero, wordAt_cons_succ]
  | succ q => simp [wordAt_cons_succ]

theorem boundariesFrom_nil (b : Bool) : boundariesFrom b [] = if b then [0] else [] := by
  cases b <;> decide

theorem boundariesFrom_cons (b : Bool) (c : Char) (s : List Char) :
    boundariesFrom b (c :: s) =
      (if (b != isWordChar c) then [0] else []) ++
        (boundariesFrom (isWordChar c) s).map (fun p => p + 1) := by
  unfold boundariesFrom
  rw [List.length_cons, List.range_succ_eq_map, List.filter_cons, List.filter_map]
  have h0 : isBoundaryFrom b (c :: s) 0 = (b != isWordChar c) := by
    simp [isBoundaryFrom, wordAt_cons_zero]
  have hcomp : (isBoundaryFrom b (c :: s) ∘ Nat.succ) = isBoundaryFrom (isWordChar c) s := by
    funext p
    exact isBoundaryFrom_cons_succ b c s p
  rw [h0, hcomp]
  cases (b != isWordChar c) <;> rfl

theorem wordBoundaries_eq (s : List Char) : wordBoundaries s = boundariesFrom false s := by
  unfold wordBoundaries boundariesFrom
  congr 1

theorem splitByLoop_acc (r : Char → Char → Bool) (l : List Char) (a : Char) (g : List Char)
    (gs : List (List Char)) :
    List.splitBy.loop r l a g gs = gs.reverse ++ List.splitBy.loop r l a g [] := by
  induction l generalizing a g gs with
  | nil => simp [List.splitBy.loop]
  | cons c cs ih =>
    simp only [List.splitBy.loop]
    cases r a c
    · simp only
      rw [ih c [] ((a :: g).reverse :: gs), ih c [] [(a :: g).reverse]]
      simp
    · simp only
      rw [ih c (a :: g) gs]

theorem splitLoop_nil (s : List Char) (beg fin : Nat) (acc : List (List Char)) :
    splitLoop s [] beg fin acc = if fin ≠ s.length then acc ++ [s.drop beg] else acc := by
  rw [splitLoop]

theorem splitLoop_cons (s : List Char) (p : Nat) (ps : List Nat) (beg fin : Nat)
    (acc : List (List Char)) :
    splitLoop s (p :: ps) beg fin acc
      = splitLoop s ps p p (if p ≠ 0 then acc ++ [(s.take p).drop beg] else acc) := by
  rw [splitLoop]

/-- The split loop, started inside a run `(a :: g).reverse` that begins at
position `pre.length`, produces the remaining maximal runs. -/
theorem splitLoop_runs :
    ∀ (s pre : List Char) (a : Char) (g : List Char) (fin : Nat) (acc : List (List Char)),
      fin ≤ pre.length →
      splitLoop (pre ++ (a :: g).reverse ++ s)
          ((boundariesFrom (isWordChar a) s).map (fun p => p + (pre.length + g.length + 1)))
          pre.length fin acc
        = acc ++ List.splitBy.loop sameClass s a g [] := by
  intro s
  induction s with
  | nil =>
    intro pre a g fin acc hfin
    have hlen : (pre ++ (a :: g).reverse).length = pre.length + g.length + 1 := by
      simp [Nat.add_assoc]
    have hdrop : (pre ++ (a :: g).reverse).drop pre.length = (a :: g).reverse :=
      List.drop_left' rfl
    have hloop : List.splitBy.loop sameClass [] a g [] = [(a :: g).reverse] := by
      simp [List.splitBy.loop]
    rw [boundariesFrom_nil, List.append_nil, hloop]
    cases hw : isWordChar a
    · rw [if_neg (by decide), List.map_nil, splitLoop_nil, if_pos (by rw [hlen]; omega), hdrop]
    · rw [if_pos rfl, List.map_cons, List.map_nil, Nat.zero_add, splitLoop_cons, splitLoop_nil,
        if_neg (by rw [hlen]; simp), if_pos (by omega),
        List.take_of_length_le (by rw [hlen]), hdrop]
  | cons c s ih =>
    intro pre a g fin acc hfin
    have hshift : ((boundariesFrom (isWordChar c) s).map (fun p => p + 1)).map
        (fun p => p + (pre.length + g.length + 1))
        = (boundariesFrom (isWordChar c) s).map (fun p => p + (pre.length + g.length + 1 + 1)) := by
      rw [List.map_map]
      apply List.map_congr_left
      intro p _
      simp only [Function.comp]
      omega
    have hlen2 : (pre ++ (a :: g).reverse).length = pre.length + g.length + 1 := by
      simp [Nat.add_assoc]
    rw [boundariesFrom_cons, List.map_append, hshift]
    cases hs : sameClass a c
    · -- a word boundary between `a` and `c`
      have hb : (isWordChar a != isWordChar c) = true := by
        unfold sameClass at hs
        cases h1 : isWordChar a <;> cases h2 : isWordChar c <;> simp [h1, h2] at hs ⊢
      have hloop : List.splitBy.loop sameClass (c :: s) a g []
          = [(a :: g).reverse] ++ List.splitBy.loop sameClass s c [] [] := by
        rw [List.splitBy.loop, hs]
        simp only
        rw [splitByLoop_acc sameClass s c [] [(a :: g).reverse]]
        rfl
      have htake : ((pre ++ (a :: g).reverse ++ c :: s).take (pre.length + g.length + 1)).drop
          pre.length = (a :: g).reverse := by
        rw [List.take_left' hlen2, List.drop_left' rfl]
      have hfull : pre ++ (a :: g).reverse ++ c :: s
          = (pre ++ (a :: g).reverse) ++ (c :: ([] : List Char)).reverse ++ s := by
        simp
      have key := ih (pre ++ (a :: g).reverse) c [] (pre.length + g.length + 1)
        (acc ++ [(a :: g).reverse]) (by rw [hlen2])
      rw [hlen2] at key
      simp only [List.length_nil, Nat.add_zero] at key
      rw [hb, if_pos rfl, List.map_cons, List.map_nil, Nat.zero_add, List.singleton_append,
        splitLoop_cons, if_pos (by omega), htake, hfull, key, hloop, List.append_assoc]
    · have hb : (isWordChar a != isWordChar c) = false := by
        unfold sameClass at hs
        cases h1 : isWordChar a <;> cases h2 : isWordChar c <;> simp [h1, h2] at hs ⊢
      have hloop : List.splitBy.loop sameClass (c :: s) a g []
          = List.splitBy.loop sameClass s c (a :: g) [] := by
        rw [List.splitBy.loop, hs]
      have hfull : pre ++ (a :: g).reverse ++ c :: s
          = pre ++ (c :: a :: g).reverse ++ s := by
        simp
      have key := ih pre c (a :: g) fin acc hfin
      simp only [List.length_cons] at key
      have hidx : pre.length + (g.length + 1) + 1 = pre.length + g.length + 1 + 1 := by omega
      rw [hidx] at key
      rw [hb, if_neg (by decide), List.map_nil, List.nil_append, hfull, key, hloop]

/-- The library split at the matches of the regexp yields the maximal runs of
word characters and of non-word characters of a non-empty string. -/
theorem regexpSplit_eq_splitBy (s : List Char) (hs : s ≠ []) :
    regexpSplit s = s.splitBy sameClass := by
  cases s with
  | nil => exact absurd rfl hs
  | cons c s =>
    unfold regexpSplit
    rw [if_neg (by simp)]
    rw [wordBoundaries_eq, boundariesFrom_cons]
    have hskip : splitLoop (c :: s)
        ((if (false != isWordChar c) then [0] else []) ++
          (boundariesFrom (isWordChar c) s).map (fun p => p + 1)) 0 0 []
        = splitLoop (c :: s) ((boundariesFrom (isWordChar c) s).map (fun p => p + 1)) 0 0 [] := by
      cases (false != isWordChar c)
      · simp
      · simp [splitLoop]
    rw [hskip]
    have key := splitLoop_runs s [] c [] 0 [] (le_refl _)
    simp only [List.length_nil, Nat.zero_add, List.reverse_cons, List.reverse_nil,
      List.nil_append, List.singleton_append] at key
    rw [key]
    rfl

/-- Claim C8 (amended). `fuzzyMatch(text, query)` is true exactly when every
piece of the query between consecutive matches of the regexp, that is, every
maximal run of word characters `[0-9A-Za-z_]` and every maximal run of other
characters (white space and punctuation included), occurs in the text as a
case-insensitive substring. -/
theorem fuzzyMatch_iff_runs (toLower : String → String) (text query : String) :
    fuzzyMatch toLower text query = true ↔
      ∀ run ∈ query.toList.splitBy sameClass,
        (toLower (String.mk run)).toList <:+: (toLower text).toList := by
  unfold fuzzyMatch
  rw [fuzzyLoop_iff]
  by_cases hq : query.toList = []
  · rw [hq]
    simp [regexpSplit]
  · rw [regexpSplit_eq_splitBy _ hq]
    constructor
    · intro h run hrun
      have hne : run ≠ [] := List.ne_nil_of_mem_splitBy sameClass hrun
      have := h (String.mk run) (List.mem_map_of_mem _ hrun)
        (by intro hcon; exact hne (congrArg String.toList hcon))
      exact (stringsContains_iff _ _).mp this
    · intro h opt hopt _
      obtain ⟨run, hrun, rfl⟩ := List.mem_map.mp hopt
      exact (stringsContains_iff _ _).mpr (h run hrun)

/-- Claim C8 (counterexample). Both white-space tokens of the query
`dune messiah` occur in the text `dune-messiah`, yet `fuzzyMatch` rejects it
(the run `" "` is missing); and no white-space token of the query `foo-bar`
occurs in the text `bar-foo`, yet `fuzzyMatch` accepts it. -/
theorem fuzzyMatch_whitespace_counterexample :
    specFuzzyMatch asciiLower "dune-messiah" "dune messiah" = true ∧
      fuzzyMatch asciiLower "dune-messiah" "dune messiah" = false ∧
      specFuzzyMatch asciiLower "bar-foo" "foo-bar" = false ∧
      fuzzyMatch asciiLower "bar-foo" "foo-bar" = true := by
  decide

/-! ## The per-row step -/

theorem goSliceTo_short (s : String) (h : goLen s < 3) : goSliceTo s 3 = .error .sliceBounds := by
  unfold goLen at h
  unfold goSliceTo
  rw [if_neg (by omega)]

/-- A row whose `Language` has fewer than 3 bytes is never listed: if it
reaches the listing, the listing panics. -/
theorem rowListing_short_language (docNumber : Nat) (info : BookInfo)
    (h : goLen info.Language < 3) : ∃ p, rowListing docNumber info = .error p := by
  unfold rowListing
  simp only [goSliceTo_short info.Language h]
  split
  · exact ⟨_, rfl⟩
  · split
    · exact ⟨_, rfl⟩
    · split
      · exact ⟨_, rfl⟩
      · split
        · exact ⟨_, rfl⟩
        · exact ⟨_, rfl⟩

/-- With a language filter of at least 3 bytes, the filter itself panics on a
`Language` of fewer than 3 bytes. -/
theorem languageRejects_short_language (lang : String) (info : BookInfo)
    (hlang : lang ≠ "") (hlen : 3 ≤ goLen lang) (h : goLen info.Language < 3) :
    languageRejects lang info = .error .sliceBounds := by
  unfold languageRejects
  rw [if_pos ⟨hlang, hlen⟩, goSliceTo_short info.Language h]

/-- Claim C10 (the code at the failing inputs). For the record "Dune" with an
empty `Language` and the query `dune`: with the language filter `eng` the
filter expression `info.Language[:3]` panics (slice bounds out of range)
instead of dropping the row; without a language filter the row passes the
filters and the listing panics at `lang := info.Language[:3]`. The same record
with `Language = "english"` is listed. -/
theorem row_short_language_panics :
    rowStep asciiLower "" "" "eng" "dune" 1 sampleBookNoLanguage = .error .sliceBounds ∧
      rowPasses asciiLower "" "" "" "dune" sampleBookNoLanguage = .ok true ∧
      rowStep asciiLower "" "" "" "dune" 1 sampleBookNoLanguage = .error .sliceBounds ∧
      (rowStep asciiLower "" "" "eng" "dune" 1 sampleBook).isOk = true := by
  decide


end Gen
